import Mathlib

/-!
Verification of the video file identity and rename subsystem
(`app/modules/rename_video_files.py`).

The Python module is shallowly embedded as follows.

* Paths and other strings are lists of characters (`Str`).
* `os.path.join` / `basename` / `dirname` / `splitext` are translated from
  CPython's `posixpath` / `genericpath` implementations.
* `str.lower` is modelled character-wise by `Char.toLower`
  (ASCII case folding; all constants compared against are ASCII).
* The filesystem is the list of paths of currently existing regular files
  (`Fs`); `os.path.exists` / `os.path.isfile` are membership,
  `shutil.move src dst` removes `src` and makes `dst` exist (if `dst`
  already existed, it is overwritten, so the path list is unchanged there).
* The sqlite table `videos` is the list of its rows in insertion
  (rowid) order (`DB`); `INSERT` respects the `id` PRIMARY KEY
  (`sqlite3.IntegrityError` on collision), `DELETE`/`UPDATE ... WHERE id = ?`
  act on every row with that id, and `LIKE` is the default sqlite matcher
  (ASCII-case-insensitive, `%`/`_` wildcards, no escape).
* `random.choices(chars, k=11)` is modelled by a supply of draws, each draw
  being a function `Fin 11 → Fin 64` selecting characters of the alphabet;
  the `while True` retry loop of `generate_unique_video_id` consumes the
  supply, and an exhausted supply stands for the unmodellable infinite
  loop (`RunErr.outOfDraws`).
* Whether a particular `shutil.move` call succeeds or raises an `OSError`
  is modelled by a `MoveOracle`; a raised exception propagates out of the
  batch functions (which have no handlers) as `RunErr.moveFailure`.
* `os.walk` enumerates, in a deterministic snapshot order, the files whose
  directory equals the walked root or lies strictly below it.
-/

/-- A Python string, as its list of characters. -/
abbrev Str := List Char

/-- Characters of a Lean string literal (used to write `Str` constants). -/
def strOf (x : String) : Str := x.data

/-- `str.lower`, modelled by ASCII case folding on each character. -/
def strLower (t : Str) : Str := t.map Char.toLower

/-- Python string comparison `a < b` (lexicographic by code point). -/
def strLt : Str → Str → Bool
  | _, [] => false
  | [], _ :: _ => true
  | a :: as, b :: bs => Nat.blt a.toNat b.toNat || (a == b && strLt as bs)

/-- `os.path.join(a, b)` for POSIX paths (two arguments). -/
def pjoin (a b : Str) : Str :=
  if b.head? = some '/' then b
  else if a = [] ∨ a.getLast? = some '/' then a ++ b
  else a ++ '/' :: b

/-- Split a path at its last `'/'`: the first component is empty or ends
with `'/'`, the second has no `'/'` (CPython `posixpath.split`, before the
head is stripped). -/
def splitAtLastSep (p : Str) : Str × Str :=
  ((p.reverse.dropWhile (fun c => ¬ c = '/')).reverse,
   (p.reverse.takeWhile (fun c => ¬ c = '/')).reverse)

/-- `os.path.basename`. -/
def basename (p : Str) : Str := (splitAtLastSep p).2

/-- `os.path.dirname`. -/
def dirname (p : Str) : Str :=
  let head := (splitAtLastSep p).1
  if head ≠ [] ∧ ¬ head.all (fun c => c = '/') then
    (head.reverse.dropWhile (fun c => c = '/')).reverse
  else head

/-- `os.path.splitext` (CPython `genericpath._splitext` with `sep = '/'`):
the extension starts at the last dot of the basename, unless every
character of the basename before that dot is itself a dot. -/
def splitext (p : Str) : Str × Str :=
  let h := (splitAtLastSep p).1
  let b := (splitAtLastSep p).2
  let ld := b.takeWhile (fun c => c = '.')
  let r := b.dropWhile (fun c => c = '.')
  if '.' ∈ r then
    let r2 := (r.reverse.takeWhile (fun c => ¬ c = '.')).reverse
    let r1 := ((r.reverse.dropWhile (fun c => ¬ c = '.')).drop 1).reverse
    (h ++ ld ++ r1, '.' :: r2)
  else (p, [])

/-- `VIDEO_EXTENSIONS = {'.mp4', '.mov', '.avi', '.mkv', '.webm', '.flv'}`. -/
def VIDEO_EXTENSIONS : List Str :=
  [strOf ".mp4", strOf ".mov", strOf ".avi", strOf ".mkv",
   strOf ".webm", strOf ".flv"]

/-- `string.ascii_letters + string.digits + '-_'`: the 64-symbol identifier
alphabet used both by `generate_unique_video_id` and `is_already_renamed`. -/
def idChars : Str :=
  strOf "abcdefghijklmnopqrstuvwxyzABCDEFGHIJKLMNOPQRSTUVWXYZ0123456789-_"

/-- `is_video_file(file_path)`. -/
def is_video_file (file_path : Str) : Prop :=
  strLower (splitext file_path).2 ∈ VIDEO_EXTENSIONS

instance (p : Str) : Decidable (is_video_file p) := by
  unfold is_video_file; infer_instance

/-- `is_already_renamed(filename)`. -/
def is_already_renamed (filename : Str) : Prop :=
  (splitext filename).1.length = 11 ∧ ∀ c ∈ (splitext filename).1, c ∈ idChars

instance (p : Str) : Decidable (is_already_renamed p) := by
  unfold is_already_renamed; infer_instance

/-- The filesystem: paths of the currently existing regular files. -/
abbrev Fs := List Str

/-- `shutil.move src dst` on the path level: `src` stops existing, `dst`
exists afterwards (an already existing `dst` is overwritten in place). -/
def fsMove (fs : Fs) (src dst : Str) : Fs :=
  let f := fs.erase src
  if dst ∈ f then f else dst :: f

/-- One row of the sqlite table `videos`. -/
structure VideoRecord where
  id : Str
  original_name : Str
  new_name : Str
  path : Str
deriving DecidableEq

/-- The `videos` table, rows in insertion (rowid) order. -/
abbrev DB := List VideoRecord

/-- The error the sqlite PRIMARY KEY constraint on `videos.id` raises
(`sqlite3.IntegrityError`); §7 of the spec calls it `DuplicateIdError`. -/
inductive DbError
  | duplicateId
deriving DecidableEq

/-- `VideoDatabase.insert`: a plain `INSERT`, so it fails on an `id`
PRIMARY KEY collision and otherwise appends the row. -/
def VideoDatabase.insert (db : DB) (video_id original_name new_name path : Str) :
    Except DbError DB :=
  if ∃ r ∈ db, r.id = video_id then .error .duplicateId
  else .ok (db ++ [⟨video_id, original_name, new_name, path⟩])

/-- `VideoDatabase.delete_by_id`: returns `false` and leaves the table
alone when no row has the id, otherwise deletes every row with the id
(`DELETE FROM videos WHERE id = ?`) and returns `true`. -/
def VideoDatabase.delete_by_id (db : DB) (video_id : Str) : Bool × DB :=
  if ∃ r ∈ db, r.id = video_id then
    (true, db.filter (fun r => decide (¬ r.id = video_id)))
  else (false, db)

/-- Key of the Python `sorted(rows, key=lambda row: (dirname(row[3]), row[1]))`
comparison: lexicographic on (directory of `path`, `original_name`). -/
def recLt (a b : VideoRecord) : Bool :=
  strLt (dirname a.path) (dirname b.path) ||
    (dirname a.path == dirname b.path && strLt a.original_name b.original_name)

/-- Insert into a sorted list, before the first element not strictly below
the inserted one (the insertion step of a stable ascending sort). -/
def insertSorted (lt : VideoRecord → VideoRecord → Bool) (x : VideoRecord) :
    DB → DB
  | [] => [x]
  | y :: ys => if lt y x then y :: insertSorted lt x ys else x :: y :: ys

/-- Stable ascending sort (the behaviour of Python's `sorted`). -/
def sortBy (lt : VideoRecord → VideoRecord → Bool) (l : DB) : DB :=
  l.foldr (insertSorted lt) []

/-- `VideoDatabase.get_all`: every row, sorted stably by
(directory of `path`, `original_name`). -/
def VideoDatabase.get_all (db : DB) : DB := sortBy recLt db

/-- `VideoDatabase.find_by_id`: first row with the id, if any. -/
def VideoDatabase.find_by_id (db : DB) (video_id : Str) : Option VideoRecord :=
  db.find? (fun r => decide (r.id = video_id))

/-- All suffixes of a string, longest first (the string itself included). -/
def suffixes : Str → List Str
  | [] => [[]]
  | c :: t => (c :: t) :: suffixes t

/-- sqlite's default `LIKE` matcher (no `ESCAPE` clause): `%` matches any
sequence (so the rest of the pattern must match some suffix), `_` any
single character, anything else one character up to ASCII case folding. -/
def likeMatch : Str → Str → Bool
  | [], t => t.isEmpty
  | pc :: ps, t =>
    if pc = '%' then (suffixes t).any (fun t2 => likeMatch ps t2)
    else
      match t with
      | [] => false
      | tc :: ts =>
        if pc = '_' then likeMatch ps ts
        else decide (Char.toLower pc = Char.toLower tc) && likeMatch ps ts

/-- `VideoDatabase._search_by_field`: `SELECT * FROM videos WHERE field
LIKE '%substring%'`, with the column projection as a function. -/
def VideoDatabase.search_by_field (db : DB) (field : VideoRecord → Str)
    (substring : Str) : DB :=
  db.filter (fun r => likeMatch ('%' :: (substring ++ ['%'])) (field r))

/-- `VideoDatabase.find_by_original_name`. -/
def VideoDatabase.find_by_original_name (db : DB) (substring : Str) : DB :=
  VideoDatabase.search_by_field db (fun r => r.original_name) substring

/-- `VideoDatabase.find_by_path`. -/
def VideoDatabase.find_by_path (db : DB) (substring : Str) : DB :=
  VideoDatabase.search_by_field db (fun r => r.path) substring

/-- One outcome of `random.choices(chars, k=11)`: a choice of an alphabet
index for each of the 11 positions. -/
abbrev Draw := Fin 11 → Fin 64

/-- The modelled stream of random draws. -/
abbrev Supply := List Draw

/-- The alphabet character selected by one index. -/
def idChar (i : Fin 64) : Char :=
  idChars.get ⟨i.1, by rw [show idChars.length = 64 from rfl]; exact i.2⟩

/-- The identifier produced by one draw:
`''.join(random.choices(chars, k=11))`. -/
def idFromDraw (d : Draw) : Str := List.ofFn (fun i => idChar (d i))

/-- `generate_unique_video_id(dir_path, ext)` (the module always calls it
with the default `length = 11`): try draws until the candidate path
`dir_path/id + ext` does not exist; `none` when the modelled draw supply
runs out (the Python loop would keep drawing). -/
def generate_unique_video_id (fs : Fs) (dir_path e : Str) :
    Supply → Option (Str × Str × Supply)
  | [] => none
  | d :: ds =>
    let new_id := idFromDraw d
    let new_path := pjoin dir_path (new_id ++ e)
    if new_path ∈ fs then generate_unique_video_id fs dir_path e ds
    else some (new_id, new_path, ds)

/-- Decides whether a given `shutil.move(src, dst)` call succeeds
(`true`) or raises an `OSError` (`false`). -/
abbrev MoveOracle := Str → Str → Bool

/-- The oracle under which every physical move succeeds. -/
def alwaysMove : MoveOracle := fun _ _ => true

/-- Abnormal termination of a run of the module:
* `outOfDraws` — the modelled draw supply ran out inside
  `generate_unique_video_id`'s `while True` loop;
* `duplicateId` — `sqlite3.IntegrityError` from `insert`, which no caller
  catches;
* `moveFailure` — an `OSError` from `shutil.move`, which no caller catches.
-/
inductive RunErr
  | outOfDraws
  | duplicateId
  | moveFailure
deriving DecidableEq

/-- `rename_single_video_and_save_metadata(file_path)`: `.ok none` when the
file is skipped, `.ok (some (new_name, new_path), ...)` when it is renamed
(note the source returns the *pair* `new_name, new_path` despite its
`Optional[str]` annotation). -/
def rename_single_video_and_save_metadata (mv : MoveOracle) (fs : Fs) (db : DB)
    (sup : Supply) (file_path : Str) :
    Except RunErr (Option (Str × Str) × Fs × DB × Supply) :=
  if ¬ file_path ∈ fs ∨ ¬ is_video_file file_path ∨ is_already_renamed file_path
  then .ok (none, fs, db, sup)
  else
    let e := strLower (splitext file_path).2
    let dir_path := dirname file_path
    let original_name := basename file_path
    match generate_unique_video_id fs dir_path e sup with
    | none => .error .outOfDraws
    | some (new_id, new_path, sup2) =>
      let new_name := basename new_path
      if mv file_path new_path then
        let fs2 := fsMove fs file_path new_path
        match VideoDatabase.insert db new_id original_name new_name new_path with
        | .error _ => .error .duplicateId
        | .ok db2 => .ok (some (new_name, new_path), fs2, db2, sup2)
      else .error .moveFailure

/-- Is a file path visited by `os.walk(directory)`? Its directory must be
the walked root or lie strictly below it. -/
def underDir (directory p : Str) : Bool :=
  dirname p == directory || (directory ++ strOf "/").isPrefixOf (dirname p)

/-- The snapshot of files `os.walk(directory)` visits, in traversal order. -/
def walkFiles (directory : Str) (fs : Fs) : List Str :=
  fs.filter (fun p => underDir directory p)

/-- The walk loop of `rename_videos_and_save_metadata`, one file path of
the snapshot at a time. -/
def rename_videos_go (mv : MoveOracle) :
    List Str → List (Str × Str) → Fs → DB → Supply →
    Except RunErr (List (Str × Str) × Fs × DB × Supply)
  | [], acc, fs, db, sup => .ok (acc, fs, db, sup)
  | p :: ps, acc, fs, db, sup =>
    let file := basename p
    if is_already_renamed file then rename_videos_go mv ps acc fs db sup
    else
      let file_path := pjoin (dirname p) file
      if is_video_file file_path then
        match rename_single_video_and_save_metadata mv fs db sup file_path with
        | .error err => .error err
        | .ok (res, fs2, db2, sup2) =>
          match res with
          | some nn => rename_videos_go mv ps (acc ++ [nn]) fs2 db2 sup2
          | none => rename_videos_go mv ps acc fs2 db2 sup2
      else rename_videos_go mv ps acc fs db sup

/-- `rename_videos_and_save_metadata(directory)` (`rename_tree`). -/
def rename_videos_and_save_metadata (mv : MoveOracle) (directory : Str)
    (fs : Fs) (db : DB) (sup : Supply) :
    Except RunErr (List (Str × Str) × Fs × DB × Supply) :=
  rename_videos_go mv (walkFiles directory fs) [] fs db sup

/-- The record loop of `remove_nonexistent_files_from_db`, iterating over
the `get_all()` snapshot while the table evolves. -/
def purge_go (fs : Fs) : List VideoRecord → List Str → DB → List Str × DB
  | [], removed, db => (removed, db)
  | r :: rs, removed, db =>
    if r.path ∈ fs then purge_go fs rs removed db
    else
      let del := VideoDatabase.delete_by_id db r.id
      purge_go fs rs (if del.1 then removed ++ [r.path] else removed) del.2

/-- `remove_nonexistent_files_from_db()` (`purge_missing`). -/
def remove_nonexistent_files_from_db (fs : Fs) (db : DB) : List Str × DB :=
  purge_go fs (VideoDatabase.get_all db) [] db

/-- `UPDATE videos SET new_name = ?, path = ? WHERE id = ?`. -/
def updateRec (db : DB) (video_id new_name path : Str) : DB :=
  db.map (fun q =>
    if q.id = video_id then { q with new_name := new_name, path := path } else q)

/-- The record loop of `restore_video_filenames_from_db`, iterating over
the `get_all()` snapshot while the filesystem and table evolve. -/
def restore_go (upd : Bool) (mv : MoveOracle) :
    List VideoRecord → List (Str × Str) → Fs → DB →
    Except RunErr (List (Str × Str) × Fs × DB)
  | [], acc, fs, db => .ok (acc, fs, db)
  | r :: rs, acc, fs, db =>
    if r.path ∈ fs then
      let dir_path := dirname r.path
      let restored_path := pjoin dir_path r.original_name
      if basename r.path = r.original_name then restore_go upd mv rs acc fs db
      else if restored_path ∈ fs then restore_go upd mv rs acc fs db
      else if mv r.path restored_path then
        let fs2 := fsMove fs r.path restored_path
        let db2 := if upd then updateRec db r.id r.original_name restored_path
                   else db
        restore_go upd mv rs (acc ++ [(r.path, restored_path)]) fs2 db2
      else .error .moveFailure
    else restore_go upd mv rs acc fs db

/-- `restore_video_filenames_from_db(update_db)` (`restore_all`). -/
def restore_video_filenames_from_db (mv : MoveOracle) (fs : Fs) (db : DB)
    (update_db : Bool) : Except RunErr (List (Str × Str) × Fs × DB) :=
  restore_go update_db mv (VideoDatabase.get_all db) [] fs db

/-- The object state a `VideoDatabase` instance carries. -/
structure VideoDatabaseInstance where
  db_path : Str
deriving DecidableEq

/-- `VideoDatabase.__new__`: the process-wide class attribute `_instance`
is the second component; a construction returns the existing instance
when there is one and otherwise creates it with the given `db_path`. -/
def videoDatabase_new (db_path : Str) (instVar : Option VideoDatabaseInstance) :
    VideoDatabaseInstance × Option VideoDatabaseInstance :=
  match instVar with
  | some i => (i, some i)
  | none => (⟨db_path⟩, some ⟨db_path⟩)

/-- Case-sensitive substring containment, as §4.2 of the spec describes
the substring search (this is the spec's wording, for comparison with the
sqlite `LIKE` behaviour of the source). -/
def strContains : Str → Str → Bool
  | [], needle => needle.isEmpty
  | h :: t, needle => needle.isPrefixOf (h :: t) || strContains t needle

/-- A file the walk loop of `rename_videos_and_save_metadata` leaves
alone: its basename already satisfies the renamed-shape predicate, or the
joined path fails one of `rename_single_video_and_save_metadata`'s
guards (not a video, already renamed, or not an existing file). -/
def Good (fs : Fs) (p : Str) : Prop :=
  is_already_renamed (basename p) ∨
    ¬ is_video_file (pjoin (dirname p) (basename p)) ∨
    is_already_renamed (pjoin (dirname p) (basename p)) ∨
    pjoin (dirname p) (basename p) ∉ fs

/-! ### Path arithmetic lemmas -/

theorem takeWhile_append_all {p : Char → Bool} {l1 l2 : Str}
    (h : ∀ c ∈ l1, p c = true) :
    (l1 ++ l2).takeWhile p = l1 ++ l2.takeWhile p := by
  induction l1 with
  | nil => simp
  | cons x xs ih =>
    have hx := h x (List.mem_cons_self x xs)
    have ih2 := ih (fun c hc => h c (List.mem_cons_of_mem x hc))
    simp [List.takeWhile_cons, hx, ih2]

theorem dropWhile_append_all {p : Char → Bool} {l1 l2 : Str}
    (h : ∀ c ∈ l1, p c = true) :
    (l1 ++ l2).dropWhile p = l2.dropWhile p := by
  induction l1 with
  | nil => simp
  | cons x xs ih =>
    have hx := h x (List.mem_cons_self x xs)
    have ih2 := ih (fun c hc => h c (List.mem_cons_of_mem x hc))
    simp [List.dropWhile_cons, hx, ih2]

theorem noSlash_decide {b : Str} (hb : '/' ∉ b) :
    ∀ c ∈ b.reverse, (fun c => decide ¬ c = '/') c = true := by
  intro c hc
  simp only [decide_eq_true_eq]
  intro h
  exact hb (h ▸ List.mem_reverse.mp hc)

/-- A slash-free path has an empty head and is its own basename. -/
theorem splitAtLastSep_noSlash {b : Str} (hb : '/' ∉ b) :
    splitAtLastSep b = ([], b) := by
  unfold splitAtLastSep
  have h1 : b.reverse.dropWhile (fun c => decide ¬ c = '/') = [] :=
    List.dropWhile_eq_nil_iff.mpr (noSlash_decide hb)
  have h2 : b.reverse.takeWhile (fun c => decide ¬ c = '/') = b.reverse :=
    List.takeWhile_eq_self_iff.mpr (noSlash_decide hb)
  rw [h1, h2, List.reverse_reverse]
  rfl

/-- Splitting a path whose last separator is explicit. -/
theorem splitAtLastSep_append {a b : Str} (hb : '/' ∉ b) :
    splitAtLastSep (a ++ '/' :: b) = (a ++ ['/'], b) := by
  unfold splitAtLastSep
  have hrw : (a ++ '/' :: b).reverse = b.reverse ++ '/' :: a.reverse := by simp
  rw [hrw, takeWhile_append_all (noSlash_decide hb),
    dropWhile_append_all (noSlash_decide hb), List.takeWhile_cons,
    List.dropWhile_cons, if_neg (by simp), if_neg (by simp)]
  simp

theorem basename_no_slash (p : Str) : '/' ∉ basename p := by
  intro h
  unfold basename splitAtLastSep at h
  have h2 := List.mem_takeWhile_imp (List.mem_reverse.mp h)
  simp at h2

theorem basename_pjoin {a b : Str} (hb : '/' ∉ b) : basename (pjoin a b) = b := by
  unfold pjoin basename
  rw [if_neg (by
    cases b with
    | nil => simp
    | cons c t =>
      simp only [List.head?_cons, Option.some.injEq]
      intro h
      exact hb (by rw [h]; exact List.mem_cons_self _ _))]
  by_cases ha : a = [] ∨ a.getLast? = some '/'
  · rw [if_pos ha]
    rcases ha with ha | ha
    · subst ha
      rw [List.nil_append, splitAtLastSep_noSlash hb]
    · have ha0 : a ≠ [] := by
        intro h0
        rw [h0] at ha
        simp at ha
      have hsplit : a.dropLast ++ [a.getLast ha0] = a := List.dropLast_append_getLast ha0
      have hlast : a.getLast ha0 = '/' := by
        have := List.getLast?_eq_getLast a ha0
        rw [this] at ha
        exact (Option.some.injEq _ _).mp ha
      calc (splitAtLastSep (a ++ b)).2
          = (splitAtLastSep (a.dropLast ++ '/' :: b)).2 := by
            rw [← hsplit, hlast]
            simp
        _ = b := by rw [splitAtLastSep_append hb]
  · rw [if_neg ha, splitAtLastSep_append hb]

theorem head_ne_slash {b : Str} (hb : '/' ∉ b) : ¬ b.head? = some '/' := by
  cases b with
  | nil => simp
  | cons c t =>
    simp only [List.head?_cons, Option.some.injEq]
    intro h
    exact hb (by rw [h]; exact List.mem_cons_self _ _)

/-- On slash-free last components and directories without a trailing slash,
`pjoin` is plain concatenation with a separator. -/
theorem pjoin_noslash {a b : Str} (hb : '/' ∉ b) (ha : ¬ a.getLast? = some '/') :
    pjoin a b = if a = [] then b else a ++ '/' :: b := by
  unfold pjoin
  rw [if_neg (head_ne_slash hb)]
  by_cases h0 : a = []
  · subst h0; simp
  · rw [if_neg (by simp [h0, ha]), if_neg h0]

theorem dirname_noSlash {b : Str} (hb : '/' ∉ b) : dirname b = [] := by
  unfold dirname
  rw [splitAtLastSep_noSlash hb]
  simp

theorem dirname_append {a b : Str} (hb : '/' ∉ b) (ha0 : a ≠ [])
    (ha : ¬ a.getLast? = some '/') : dirname (a ++ '/' :: b) = a := by
  have hlast : a.getLast ha0 ≠ '/' := by
    intro h
    exact ha (by rw [List.getLast?_eq_getLast a ha0, h])
  unfold dirname
  rw [splitAtLastSep_append hb]
  have hnotall : ¬ (a ++ ['/']).all (fun c => decide (c = '/')) = true := by
    rw [List.all_eq_true]
    intro hall
    have := hall (a.getLast ha0) (List.mem_append_left _ (List.getLast_mem ha0))
    simp only [decide_eq_true_eq] at this
    exact hlast this
  rw [if_pos ⟨by simp, hnotall⟩]
  have hrev : (a ++ ['/']).reverse = '/' :: a.reverse := by simp
  rw [hrev, List.dropWhile_cons, if_pos (by simp)]
  cases harev : a.reverse with
  | nil => exact absurd (by simpa using congrArg List.reverse harev) ha0
  | cons c t =>
    have hc : c ≠ '/' := by
      intro h
      apply ha
      rw [List.getLast?_eq_head?_reverse, harev, h]
      rfl
    rw [List.dropWhile_cons, if_neg (by simp [hc]), ← harev, List.reverse_reverse]

theorem dirname_pjoin {a b : Str} (hb : '/' ∉ b) (ha : ¬ a.getLast? = some '/') :
    dirname (pjoin a b) = a := by
  rw [pjoin_noslash hb ha]
  by_cases h0 : a = []
  · rw [if_pos h0, dirname_noSlash hb, h0]
  · rw [if_neg h0, dirname_append hb h0 ha]

theorem splitext_append_ext {a b2 : Str} (ha0 : a ≠ []) (had : '.' ∉ a)
    (has : '/' ∉ a) (hbd : '.' ∉ b2) (hbs : '/' ∉ b2) :
    splitext (a ++ '.' :: b2) = (a, '.' :: b2) := by
  have hw : '/' ∉ a ++ '.' :: b2 := by
    intro h
    rcases List.mem_append.mp h with h | h
    · exact has h
    · rcases List.mem_cons.mp h with h | h
      · exact absurd h (by decide)
      · exact hbs h
  have h1 := splitAtLastSep_noSlash hw
  obtain ⟨a0, arest, rfl⟩ : ∃ a0 arest, a = a0 :: arest := by
    cases a with
    | nil => exact absurd rfl ha0
    | cons x xs => exact ⟨x, xs, rfl⟩
  have ha0d : ¬ a0 = '.' := fun h => had (by rw [h]; exact List.mem_cons_self _ _)
  have hb2' : ∀ c ∈ b2.reverse, (fun c => decide ¬ c = '.') c = true := by
    intro c hc
    simp only [decide_eq_true_eq]
    intro h
    exact hbd (h ▸ List.mem_reverse.mp hc)
  simp only [splitext, h1]
  have e1 : ((a0 :: arest) ++ '.' :: b2).takeWhile (fun c => decide (c = '.')) = [] := by
    rw [List.cons_append, List.takeWhile_cons, if_neg (by simp [ha0d])]
  have e2 : ((a0 :: arest) ++ '.' :: b2).dropWhile (fun c => decide (c = '.'))
      = (a0 :: arest) ++ '.' :: b2 := by
    rw [List.cons_append, List.dropWhile_cons, if_neg (by simp [ha0d])]
  rw [e1, e2, if_pos (by simp)]
  have e4 : ((a0 :: arest) ++ '.' :: b2).reverse
      = b2.reverse ++ '.' :: (a0 :: arest).reverse := by simp
  rw [e4, takeWhile_append_all hb2', dropWhile_append_all hb2',
    List.takeWhile_cons, List.dropWhile_cons, if_neg (by simp), if_neg (by simp)]
  simp

theorem idFromDraw_length (d : Draw) : (idFromDraw d).length = 11 :=
  List.length_ofFn _

theorem idFromDraw_mem {d : Draw} {c : Char} (h : c ∈ idFromDraw d) :
    c ∈ idChars := by
  unfold idFromDraw at h
  rw [List.mem_ofFn] at h
  rcases h with ⟨i, hi⟩
  rw [← hi]
  exact List.get_mem _ _ _

theorem already_renamed_of_ext {a e : Str} (hlen : a.length = 11)
    (hmem : ∀ c ∈ a, c ∈ idChars) (he : e ∈ VIDEO_EXTENSIONS) :
    is_already_renamed (a ++ e) := by
  have ha0 : a ≠ [] := by
    intro h
    rw [h] at hlen
    simp at hlen
  have had : '.' ∉ a := fun h => absurd (hmem _ h) (by decide)
  have has : '/' ∉ a := fun h => absurd (hmem _ h) (by decide)
  have core : ∀ b2 : Str, '.' ∉ b2 → '/' ∉ b2 → e = '.' :: b2 →
      is_already_renamed (a ++ e) := by
    intro b2 hbd hbs hee
    subst hee
    unfold is_already_renamed
    rw [splitext_append_ext ha0 had has hbd hbs]
    exact ⟨hlen, hmem⟩
  simp only [VIDEO_EXTENSIONS, List.mem_cons, List.not_mem_nil, or_false] at he
  rcases he with he | he | he | he | he | he
  · exact core (strOf "mp4") (by decide) (by decide) he
  · exact core (strOf "mov") (by decide) (by decide) he
  · exact core (strOf "avi") (by decide) (by decide) he
  · exact core (strOf "mkv") (by decide) (by decide) he
  · exact core (strOf "webm") (by decide) (by decide) he
  · exact core (strOf "flv") (by decide) (by decide) he

theorem already_renamed_idFromDraw {d : Draw} {e : Str}
    (he : e ∈ VIDEO_EXTENSIONS) : is_already_renamed (idFromDraw d ++ e) :=
  already_renamed_of_ext (idFromDraw_length d) (fun _ h => idFromDraw_mem h) he

theorem no_slash_id_ext {d : Draw} {e : Str} (he : e ∈ VIDEO_EXTENSIONS) :
    '/' ∉ idFromDraw d ++ e := by
  intro h
  rcases List.mem_append.mp h with h | h
  · exact absurd (idFromDraw_mem h) (by decide)
  · simp only [VIDEO_EXTENSIONS, List.mem_cons, List.not_mem_nil, or_false] at he
    rcases he with he | he | he | he | he | he <;> subst he <;> revert h <;> decide

theorem pjoin_right_inj {a b1 b2 : Str} (h1 : ¬ b1.head? = some '/')
    (h2 : ¬ b2.head? = some '/') (h : pjoin a b1 = pjoin a b2) : b1 = b2 := by
  unfold pjoin at h
  rw [if_neg h1, if_neg h2] at h
  by_cases hc : a = [] ∨ a.getLast? = some '/'
  · rw [if_pos hc, if_pos hc] at h
    exact List.append_cancel_left h
  · rw [if_neg hc, if_neg hc] at h
    simpa using List.append_cancel_left h

/-! ### Identity generator -/

theorem generate_spec {fs : Fs} {dir e : Str} :
    ∀ {sup : Supply} {new_id new_path : Str} {sup2 : Supply},
    generate_unique_video_id fs dir e sup = some (new_id, new_path, sup2) →
    (∃ d : Draw, new_id = idFromDraw d) ∧
      new_path = pjoin dir (new_id ++ e) ∧ new_path ∉ fs
  | [], _, _, _, h => by simp [generate_unique_video_id] at h
  | d :: ds, new_id, new_path, sup2, h => by
    simp only [generate_unique_video_id] at h
    by_cases hc : pjoin dir (idFromDraw d ++ e) ∈ fs
    · rw [if_pos hc] at h
      exact generate_spec h
    · rw [if_neg hc] at h
      obtain ⟨h1, h2, h3⟩ : idFromDraw d = new_id ∧ pjoin dir (idFromDraw d ++ e) = new_path ∧ ds = sup2 := by
        have := Option.some.injEq _ _ ▸ h
        cases h
        exact ⟨rfl, rfl, rfl⟩
      subst h1
      subst h3
      exact ⟨⟨d, rfl⟩, h2.symm, h2 ▸ hc⟩

/-! ### The stable sort of `get_all` -/

theorem insertSorted_perm (lt : VideoRecord → VideoRecord → Bool)
    (x : VideoRecord) (l : DB) : (insertSorted lt x l).Perm (x :: l) := by
  induction l with
  | nil => exact List.Perm.refl _
  | cons y ys ih =>
    unfold insertSorted
    by_cases h : lt y x
    · rw [if_pos h]
      exact ((ih.cons y).trans (List.Perm.swap x y ys))
    · rw [if_neg h]

theorem sortBy_perm (lt : VideoRecord → VideoRecord → Bool) (l : DB) :
    (sortBy lt l).Perm l := by
  induction l with
  | nil => exact List.Perm.refl _
  | cons x xs ih =>
    unfold sortBy at ih ⊢
    simp only [List.foldr_cons]
    exact (insertSorted_perm lt x _).trans (ih.cons x)

theorem get_all_perm (db : DB) : (VideoDatabase.get_all db).Perm db :=
  sortBy_perm _ _

theorem mem_get_all {db : DB} {r : VideoRecord} :
    r ∈ VideoDatabase.get_all db ↔ r ∈ db :=
  (get_all_perm db).mem_iff

/-! ### Claim theorems -/

theorem videoDatabase_fold (ps : List Str) (i : VideoDatabaseInstance) :
    ps.foldl (fun st p => videoDatabase_new p st.2) (i, some i) = (i, some i) := by
  induction ps with
  | nil => rfl
  | cons p pt ih => simpa [videoDatabase_new] using ih

/-- C10: `VideoDatabase` is a process-wide singleton: after the first
construction with `db_path = p1`, any sequence of later constructions
(with arbitrary path arguments) still yields the instance created first,
whose stored path is `p1`; a construction that finds an existing instance
returns it and ignores its own `db_path` argument. -/
theorem C10_videoDatabase_singleton (p1 : Str) (ps : List Str) :
    (ps.foldl (fun st p => videoDatabase_new p st.2) (videoDatabase_new p1 none)).1
        = ⟨p1⟩ ∧
    ((ps.foldl (fun st p => videoDatabase_new p st.2) (videoDatabase_new p1 none)).1).db_path
        = p1 ∧
    (∀ p2 i, videoDatabase_new p2 (some i) = (i, some i)) := by
  have h : videoDatabase_new p1 none = (⟨p1⟩, some ⟨p1⟩) := rfl
  rw [h, videoDatabase_fold]
  exact ⟨rfl, rfl, fun _ _ => rfl⟩

/-- C5: every `(id, path)` pair returned by `generate_unique_video_id` has
an id of length exactly 11 over the 64-symbol alphabet, and a path
`dir/id + ext` that did not exist at the existence check; when a
candidate path exists, the generator retries with the next fresh draw
instead of returning. -/
theorem C5_generate_unique_video_id (fs : Fs) (dir e : Str) (sup : Supply)
    (new_id new_path : Str) (sup2 : Supply)
    (h : generate_unique_video_id fs dir e sup = some (new_id, new_path, sup2)) :
    new_id.length = 11 ∧ (∀ c ∈ new_id, c ∈ idChars) ∧
      new_path = pjoin dir (new_id ++ e) ∧ new_path ∉ fs ∧
      (∀ d : Draw, ∀ ds : Supply, pjoin dir (idFromDraw d ++ e) ∈ fs →
        generate_unique_video_id fs dir e (d :: ds)
          = generate_unique_video_id fs dir e ds) := by
  obtain ⟨⟨d, rfl⟩, h2, h3⟩ := generate_spec h
  refine ⟨idFromDraw_length d, fun c hc => idFromDraw_mem hc, h2, h3, ?_⟩
  intro d2 ds hmem
  simp only [generate_unique_video_id]
  rw [if_pos hmem]

theorem C5_generate_unique_video_id_witness :
    (strOf "aaaaaaaaaaa").length = 11 ∧ (∀ c ∈ strOf "aaaaaaaaaaa", c ∈ idChars) ∧
      strOf "v/aaaaaaaaaaa.mp4"
        = pjoin (strOf "v") (strOf "aaaaaaaaaaa" ++ strOf ".mp4") ∧
      strOf "v/aaaaaaaaaaa.mp4" ∉ ([] : Fs) ∧
      (∀ d : Draw, ∀ ds : Supply,
        pjoin (strOf "v") (idFromDraw d ++ strOf ".mp4") ∈ ([] : Fs) →
        generate_unique_video_id [] (strOf "v") (strOf ".mp4") (d :: ds)
          = generate_unique_video_id [] (strOf "v") (strOf ".mp4") ds) :=
  C5_generate_unique_video_id [] (strOf "v") (strOf ".mp4")
    [fun _ => 0] (strOf "aaaaaaaaaaa") (strOf "v/aaaaaaaaaaa.mp4") [] rfl

/-- C9: `insert` fails with the duplicate-id error exactly when a row with
the same id is already present (the PRIMARY KEY makes the registry enforce
this itself); a successful insert appends exactly the one new row and
preserves the id-uniqueness invariant. -/
theorem C9_insert_duplicate_id (db : DB) (video_id original_name new_name path : Str) :
    (VideoDatabase.insert db video_id original_name new_name path
        = .error .duplicateId ↔ ∃ r ∈ db, r.id = video_id) ∧
    (∀ db2, VideoDatabase.insert db video_id original_name new_name path = .ok db2 →
      db2 = db ++ [⟨video_id, original_name, new_name, path⟩] ∧
      ((db.map (fun r => r.id)).Nodup → (db2.map (fun r => r.id)).Nodup)) := by
  unfold VideoDatabase.insert
  by_cases h : ∃ r ∈ db, r.id = video_id
  · rw [if_pos h]
    refine ⟨⟨fun _ => h, fun _ => rfl⟩, ?_⟩
    intro db2 hok
    exact absurd hok (by simp)
  · rw [if_neg h]
    refine ⟨⟨fun hctr => absurd hctr (by simp), fun hh => absurd hh h⟩, ?_⟩
    intro db2 hok
    have hdb2 : db ++ [(⟨video_id, original_name, new_name, path⟩ : VideoRecord)] = db2 := by
      cases hok
      rfl
    refine ⟨hdb2.symm, ?_⟩
    intro hnd
    rw [← hdb2, List.map_append]
    rw [List.nodup_append]
    refine ⟨hnd, by simp, ?_⟩
    intro x hx
    simp only [List.map_cons, List.map_nil, List.mem_singleton]
    intro hx2
    rcases List.mem_map.mp hx with ⟨r, hr, hrid⟩
    exact h ⟨r, hr, by rw [hrid, hx2]⟩

theorem C9_insert_duplicate_id_witness :
    (VideoDatabase.insert [⟨strOf "i", strOf "o", strOf "n", strOf "p"⟩]
        (strOf "i") (strOf "o2") (strOf "n2") (strOf "p2")
        = .error .duplicateId ↔
      ∃ r ∈ [(⟨strOf "i", strOf "o", strOf "n", strOf "p"⟩ : VideoRecord)],
        r.id = strOf "i") ∧
    (∀ db2, VideoDatabase.insert [⟨strOf "i", strOf "o", strOf "n", strOf "p"⟩]
        (strOf "i") (strOf "o2") (strOf "n2") (strOf "p2") = .ok db2 →
      db2 = [⟨strOf "i", strOf "o", strOf "n", strOf "p"⟩]
          ++ [⟨strOf "i", strOf "o2", strOf "n2", strOf "p2"⟩] ∧
      (([(⟨strOf "i", strOf "o", strOf "n", strOf "p"⟩ : VideoRecord)].map
          (fun r => r.id)).Nodup → (db2.map (fun r => r.id)).Nodup)) :=
  C9_insert_duplicate_id [⟨strOf "i", strOf "o", strOf "n", strOf "p"⟩]
    (strOf "i") (strOf "o2") (strOf "n2") (strOf "p2")

/-! ### C4: what the rename batch actually returns -/

/-- C4: on a concrete one-file tree the batch returns a list whose element
is the pair `(new_name, new_path)` — not the bare new name the
`Optional[str]` / `List[str]` annotations of the source promise. -/
theorem C4_rename_returns_pairs :
    rename_videos_and_save_metadata alwaysMove (strOf "v")
        [strOf "v/MyClip.mp4"] [] [fun _ => 0]
      = .ok ([(strOf "aaaaaaaaaaa.mp4", strOf "v/aaaaaaaaaaa.mp4")],
          [strOf "v/aaaaaaaaaaa.mp4"],
          [⟨strOf "aaaaaaaaaaa", strOf "MyClip.mp4", strOf "aaaaaaaaaaa.mp4",
            strOf "v/aaaaaaaaaaa.mp4"⟩],
          []) := rfl

/-! ### C8: substring search -/

theorem mem_suffixes_self (t : Str) : t ∈ suffixes t := by
  cases t <;> simp [suffixes]

theorem nil_mem_suffixes (t : Str) : [] ∈ suffixes t := by
  induction t <;> simp [suffixes, *]

theorem likeMatch_pct (ps : Str) (t : Str) :
    likeMatch ('%' :: ps) t = true ↔ ∃ t2 ∈ suffixes t, likeMatch ps t2 = true := by
  simp [likeMatch, List.any_eq_true]

theorem likeMatch_tail : ∀ (sub : Str), '%' ∉ sub → '_' ∉ sub → ∀ t,
    likeMatch (sub ++ ['%']) t = true ↔
      sub.length ≤ t.length ∧ strLower (t.take sub.length) = strLower sub
  | [], _, _ => by
    intro t
    simp only [List.nil_append, List.length_nil, Nat.zero_le, true_and,
      List.take_zero]
    rw [likeMatch_pct]
    constructor
    · intro _; trivial
    · intro _
      exact ⟨[], nil_mem_suffixes t, rfl⟩
  | c :: cs, h1, h2 => by
    have hc1 : ¬ c = '%' := fun h => h1 (by rw [h]; exact List.mem_cons_self _ _)
    have hc2 : ¬ c = '_' := fun h => h2 (by rw [h]; exact List.mem_cons_self _ _)
    have h1' : '%' ∉ cs := fun h => h1 (List.mem_cons_of_mem _ h)
    have h2' : '_' ∉ cs := fun h => h2 (List.mem_cons_of_mem _ h)
    intro t
    cases t with
    | nil =>
      simp [likeMatch, hc1]
    | cons tc ts =>
      simp only [List.cons_append, likeMatch, if_neg hc1, if_neg hc2,
        Bool.and_eq_true, decide_eq_true_eq, List.append_eq]
      rw [likeMatch_tail cs h1' h2' ts]
      simp only [List.length_cons, List.take_succ_cons, strLower,
        List.map_cons, List.cons.injEq]
      constructor
      · rintro ⟨hx, hy, hz⟩
        exact ⟨Nat.succ_le_succ hy, hx.symm, hz⟩
      · rintro ⟨hy, hx, hz⟩
        exact ⟨hx.symm, Nat.le_of_succ_le_succ hy, hz⟩

theorem strContains_iff : ∀ (hay needle : Str),
    strContains hay needle = true ↔
      ∃ h2 ∈ suffixes hay, needle.isPrefixOf h2 = true
  | [], needle => by
    cases needle <;> simp [strContains, suffixes, List.isPrefixOf]
  | h :: t, needle => by
    simp [strContains, suffixes, strContains_iff t needle, Bool.or_eq_true]

theorem suffixes_map (f : Char → Char) :
    ∀ t : Str, suffixes (t.map f) = (suffixes t).map (List.map f)
  | [] => rfl
  | c :: t => by simp [suffixes, suffixes_map f t]

theorem isPrefixOf_iff_take : ∀ (a b : Str),
    a.isPrefixOf b = true ↔ (a.length ≤ b.length ∧ b.take a.length = a)
  | [], b => by simp [List.isPrefixOf]
  | c :: cs, [] => by simp [List.isPrefixOf]
  | c :: cs, x :: xs => by
    simp only [List.isPrefixOf, Bool.and_eq_true, beq_iff_eq,
      isPrefixOf_iff_take cs xs, List.length_cons, List.take_succ_cons,
      List.cons.injEq, Nat.add_le_add_iff_right]
    constructor
    · rintro ⟨hcx, hle, ht⟩
      exact ⟨hle, hcx.symm, ht⟩
    · rintro ⟨hle, hxc, ht⟩
      exact ⟨hxc.symm, hle, ht⟩

theorem likeMatch_contains {sub : Str} (h1 : '%' ∉ sub) (h2 : '_' ∉ sub)
    (t : Str) :
    likeMatch ('%' :: (sub ++ ['%'])) t = true ↔
      strContains (strLower t) (strLower sub) = true := by
  rw [likeMatch_pct, strContains_iff]
  unfold strLower
  rw [suffixes_map]
  constructor
  · rintro ⟨t2, ht2, hm⟩
    rw [likeMatch_tail sub h1 h2 t2] at hm
    obtain ⟨hlen, htake⟩ := hm
    refine ⟨t2.map Char.toLower, List.mem_map_of_mem _ ht2, ?_⟩
    rw [isPrefixOf_iff_take]
    refine ⟨by simpa using hlen, ?_⟩
    rw [List.length_map, ← List.map_take]
    exact htake
  · rintro ⟨h2x, hh2, hpre⟩
    rcases List.mem_map.mp hh2 with ⟨t2, ht2, rfl⟩
    rw [isPrefixOf_iff_take] at hpre
    obtain ⟨hl, ht⟩ := hpre
    refine ⟨t2, ht2, ?_⟩
    rw [likeMatch_tail sub h1 h2 t2]
    refine ⟨by simpa using hl, ?_⟩
    rw [List.length_map, ← List.map_take] at ht
    exact ht

/-- C8 counterexample: the search is *not* case-sensitive containment:
a record whose `original_name` is `"ABC"` is returned for the substring
`"abc"` although `"abc"` does not occur case-sensitively in `"ABC"`; and
`_` in the substring acts as a wildcard, matching `"axc"` for `"a_c"`. -/
theorem C8_counterexample :
    VideoDatabase.find_by_original_name
        [⟨strOf "i1", strOf "ABC", strOf "n", strOf "p"⟩] (strOf "abc")
      = [⟨strOf "i1", strOf "ABC", strOf "n", strOf "p"⟩] ∧
    strContains (strOf "ABC") (strOf "abc") = false ∧
    VideoDatabase.find_by_original_name
        [⟨strOf "i2", strOf "axc", strOf "n", strOf "p"⟩] (strOf "a_c")
      = [⟨strOf "i2", strOf "axc", strOf "n", strOf "p"⟩] ∧
    strContains (strOf "axc") (strOf "a_c") = false := by
  refine ⟨rfl, rfl, rfl, rfl⟩

/-- C8 (amended): for substrings free of the sqlite `LIKE` wildcards
`%` and `_`, the substring search returns exactly the records whose
field contains the substring under ASCII-case-insensitive containment. -/
theorem C8_search_case_insensitive (db : DB) (sub : Str)
    (h1 : '%' ∉ sub) (h2 : '_' ∉ sub) (r : VideoRecord) :
    (r ∈ VideoDatabase.find_by_original_name db sub ↔
      r ∈ db ∧ strContains (strLower r.original_name) (strLower sub) = true) ∧
    (r ∈ VideoDatabase.find_by_path db sub ↔
      r ∈ db ∧ strContains (strLower r.path) (strLower sub) = true) := by
  unfold VideoDatabase.find_by_original_name VideoDatabase.find_by_path
    VideoDatabase.search_by_field
  rw [List.mem_filter, List.mem_filter, likeMatch_contains h1 h2,
    likeMatch_contains h1 h2]
  exact ⟨Iff.rfl, Iff.rfl⟩

theorem C8_search_case_insensitive_witness :
    ((⟨strOf "i1", strOf "ABC", strOf "n", strOf "p"⟩ : VideoRecord) ∈
        VideoDatabase.find_by_original_name
          [⟨strOf "i1", strOf "ABC", strOf "n", strOf "p"⟩] (strOf "abc") ↔
      (⟨strOf "i1", strOf "ABC", strOf "n", strOf "p"⟩ : VideoRecord) ∈
          [(⟨strOf "i1", strOf "ABC", strOf "n", strOf "p"⟩ : VideoRecord)] ∧
        strContains (strLower (strOf "ABC")) (strLower (strOf "abc")) = true) ∧
    ((⟨strOf "i1", strOf "ABC", strOf "n", strOf "p"⟩ : VideoRecord) ∈
        VideoDatabase.find_by_path
          [⟨strOf "i1", strOf "ABC", strOf "n", strOf "p"⟩] (strOf "abc") ↔
      (⟨strOf "i1", strOf "ABC", strOf "n", strOf "p"⟩ : VideoRecord) ∈
          [(⟨strOf "i1", strOf "ABC", strOf "n", strOf "p"⟩ : VideoRecord)] ∧
        strContains (strLower (strOf "p")) (strLower (strOf "abc")) = true) :=
  C8_search_case_insensitive [⟨strOf "i1", strOf "ABC", strOf "n", strOf "p"⟩]
    (strOf "abc") (by decide) (by decide) _

/-! ### C3: behaviour of the batches under a move failure -/

theorem rename_videos_go_append (mv : MoveOracle) :
    ∀ (L1 L2 : List Str) (acc : List (Str × Str)) (fs : Fs) (db : DB) (sup : Supply),
    rename_videos_go mv (L1 ++ L2) acc fs db sup =
      match rename_videos_go mv L1 acc fs db sup with
      | .error e => .error e
      | .ok (a, f, d, s) => rename_videos_go mv L2 a f d s
  | [], L2, acc, fs, db, sup => rfl
  | p :: ps, L2, acc, fs, db, sup => by
    simp only [List.cons_append, rename_videos_go, List.append_eq]
    by_cases h1 : is_already_renamed (basename p)
    · rw [if_pos h1, if_pos h1]
      exact rename_videos_go_append mv ps L2 acc fs db sup
    · rw [if_neg h1, if_neg h1]
      by_cases h2 : is_video_file (pjoin (dirname p) (basename p))
      · rw [if_pos h2, if_pos h2]
        cases hr : rename_single_video_and_save_metadata mv fs db sup
            (pjoin (dirname p) (basename p)) with
        | error e => rfl
        | ok st =>
          obtain ⟨ores, fs2, db2, sup2⟩ := st
          cases ores with
          | some nn => exact rename_videos_go_append mv ps L2 (acc ++ [nn]) fs2 db2 sup2
          | none => exact rename_videos_go_append mv ps L2 acc fs2 db2 sup2
      · rw [if_neg h2, if_neg h2]
        exact rename_videos_go_append mv ps L2 acc fs db sup

theorem restore_go_append (upd : Bool) (mv : MoveOracle) :
    ∀ (L1 L2 : List VideoRecord) (acc : List (Str × Str)) (fs : Fs) (db : DB),
    restore_go upd mv (L1 ++ L2) acc fs db =
      match restore_go upd mv L1 acc fs db with
      | .error e => .error e
      | .ok (a, f, d) => restore_go upd mv L2 a f d
  | [], L2, acc, fs, db => rfl
  | r :: rs, L2, acc, fs, db => by
    simp only [List.cons_append, restore_go, List.append_eq]
    by_cases h1 : r.path ∈ fs
    · rw [if_pos h1, if_pos h1]
      by_cases h2 : basename r.path = r.original_name
      · rw [if_pos h2, if_pos h2]
        exact restore_go_append upd mv rs L2 acc fs db
      · rw [if_neg h2, if_neg h2]
        by_cases h3 : pjoin (dirname r.path) r.original_name ∈ fs
        · rw [if_pos h3, if_pos h3]
          exact restore_go_append upd mv rs L2 acc fs db
        · rw [if_neg h3, if_neg h3]
          by_cases h4 : mv r.path (pjoin (dirname r.path) r.original_name) = true
          · rw [if_pos h4, if_pos h4]
            exact restore_go_append upd mv rs L2 _ _ _
          · rw [if_neg h4, if_neg h4]
    · rw [if_neg h1, if_neg h1]
      exact restore_go_append upd mv rs L2 acc fs db

/-- C3 counterexample: on a two-file tree where the physical move of the
first file raises, the whole batch raises `moveFailure` to the caller —
the second file is not processed and no list of applied renames is
returned (the claim would have the run return a list omitting only the
failed item). -/
theorem C3_counterexample :
    rename_videos_and_save_metadata
        (fun src _ => decide (¬ src = strOf "v/a.mp4")) (strOf "v")
        [strOf "v/a.mp4", strOf "v/b.mp4"] [] [fun _ => 0, fun _ => 1]
      = .error .moveFailure := rfl

/-- C3 (amended): a per-file failure (such as a failed physical move)
aborts the batch: as soon as the processing of one snapshot entry raises,
`rename_videos_and_save_metadata` and `restore_video_filenames_from_db`
propagate the error to the caller and the remaining entries are never
processed; files handled before the failure keep their state changes but
no result list is returned. -/
theorem C3_move_failure_aborts_batch :
    (∀ (mv : MoveOracle) (L1 : List Str) (p : Str) (L2 : List Str)
        (acc : List (Str × Str)) (fs : Fs) (db : DB) (sup : Supply)
        (acc1 : List (Str × Str)) (fs1 : Fs) (db1 : DB) (sup1 : Supply)
        (e : RunErr),
      rename_videos_go mv L1 acc fs db sup = .ok (acc1, fs1, db1, sup1) →
      rename_videos_go mv [p] acc1 fs1 db1 sup1 = .error e →
      rename_videos_go mv (L1 ++ p :: L2) acc fs db sup = .error e) ∧
    (∀ (upd : Bool) (mv : MoveOracle) (L1 : List VideoRecord) (r : VideoRecord)
        (L2 : List VideoRecord) (acc : List (Str × Str)) (fs : Fs) (db : DB)
        (acc1 : List (Str × Str)) (fs1 : Fs) (db1 : DB) (e : RunErr),
      restore_go upd mv L1 acc fs db = .ok (acc1, fs1, db1) →
      restore_go upd mv [r] acc1 fs1 db1 = .error e →
      restore_go upd mv (L1 ++ r :: L2) acc fs db = .error e) := by
  constructor
  · intro mv L1 p L2 acc fs db sup acc1 fs1 db1 sup1 e h1 h2
    have happ := rename_videos_go_append mv L1 (p :: L2) acc fs db sup
    rw [h1] at happ
    rw [happ]
    have happ2 := rename_videos_go_append mv [p] L2 acc1 fs1 db1 sup1
    rw [h2] at happ2
    simpa using happ2
  · intro upd mv L1 r L2 acc fs db acc1 fs1 db1 e h1 h2
    have happ := restore_go_append upd mv L1 (r :: L2) acc fs db
    rw [h1] at happ
    rw [happ]
    have happ2 := restore_go_append upd mv [r] L2 acc1 fs1 db1
    rw [h2] at happ2
    simpa using happ2

theorem C3_move_failure_aborts_batch_witness :
    rename_videos_go (fun _ _ => false) [strOf "w/a.mp4", strOf "w/b.mp4"]
        [] [strOf "w/a.mp4", strOf "w/b.mp4"] [] [fun _ => 0]
      = .error .moveFailure :=
  C3_move_failure_aborts_batch.1 (fun _ _ => false) [] (strOf "w/a.mp4")
    [strOf "w/b.mp4"] [] [strOf "w/a.mp4", strOf "w/b.mp4"] [] [fun _ => 0]
    [] [strOf "w/a.mp4", strOf "w/b.mp4"] [] [fun _ => 0] .moveFailure rfl rfl

/-! ### C6: the reconciliation sweep -/

theorem delete_by_id_snd (db : DB) (i : Str) :
    (VideoDatabase.delete_by_id db i).2
      = db.filter (fun r => decide (¬ r.id = i)) := by
  unfold VideoDatabase.delete_by_id
  by_cases h : ∃ r ∈ db, r.id = i
  · rw [if_pos h]
  · rw [if_neg h]
    have hfe : db.filter (fun r => decide (¬ r.id = i)) = db :=
      List.filter_eq_self.mpr (fun r hr => by
        simp only [decide_eq_true_eq]
        exact fun hh => h ⟨r, hr, hh⟩)
    rw [hfe]

theorem purge_go_db (fs : Fs) :
    ∀ (L : List VideoRecord) (removed : List Str) (db : DB),
    (purge_go fs L removed db).2 =
      db.filter (fun q => decide (¬ ∃ r ∈ L, r.id = q.id ∧ ¬ r.path ∈ fs))
  | [], removed, db => by
    simp only [purge_go]
    have : db.filter
        (fun q => decide (¬ ∃ r ∈ ([] : List VideoRecord), r.id = q.id ∧ ¬ r.path ∈ fs))
        = db :=
      List.filter_eq_self.mpr (fun q hq => by simp)
    rw [this]
  | r :: rs, removed, db => by
    simp only [purge_go]
    by_cases hp : r.path ∈ fs
    · rw [if_pos hp, purge_go_db fs rs removed db]
      apply List.filter_congr
      intro q hq
      rw [decide_eq_decide]
      constructor
      · intro hno hex
        apply hno
        rcases hex with ⟨x, hx, hid, hpath⟩
        rcases List.mem_cons.mp hx with hx | hx
        · exact absurd hp (hx ▸ hpath)
        · exact ⟨x, hx, hid, hpath⟩
      · intro hno ⟨x, hx, hid, hpath⟩
        exact hno ⟨x, List.mem_cons_of_mem _ hx, hid, hpath⟩
    · rw [if_neg hp, purge_go_db fs rs _ _, delete_by_id_snd, List.filter_filter]
      apply List.filter_congr
      intro q hq
      rw [← Bool.decide_and, decide_eq_decide]
      constructor
      · rintro ⟨hno, hne⟩ ⟨x, hx, hid, hpath⟩
        rcases List.mem_cons.mp hx with hx | hx
        · exact hne (hx ▸ hid).symm
        · exact hno ⟨x, hx, hid, hpath⟩
      · intro hno
        constructor
        · rintro ⟨x, hx, hid, hpath⟩
          exact hno ⟨x, List.mem_cons_of_mem _ hx, hid, hpath⟩
        · intro heq
          exact hno ⟨r, List.mem_cons_self _ _, heq.symm, hp⟩

theorem purge_go_removed (fs : Fs) :
    ∀ (L : List VideoRecord) (removed : List Str) (db : DB),
    ((L.map (fun r => r.id)).Nodup) →
    (∀ r ∈ L, ∃ q ∈ db, q.id = r.id) →
    (purge_go fs L removed db).1 =
      removed ++ (L.filter (fun r => decide (¬ r.path ∈ fs))).map (fun r => r.path)
  | [], removed, db, _, _ => by simp [purge_go]
  | r :: rs, removed, db, hnd, hpres => by
    have hndc := hnd
    rw [List.map_cons, List.nodup_cons] at hndc
    have hnd' : (rs.map (fun r => r.id)).Nodup := hndc.2
    simp only [purge_go]
    by_cases hp : r.path ∈ fs
    · rw [if_pos hp, purge_go_removed fs rs removed db hnd'
        (fun x h => hpres x (List.mem_cons_of_mem _ h))]
      rw [List.filter_cons, if_neg (by simp [hp])]
    · rw [if_neg hp]
      have hpr : ∃ q ∈ db, q.id = r.id := hpres r (List.mem_cons_self _ _)
      have hdel1 : (VideoDatabase.delete_by_id db r.id).1 = true := by
        unfold VideoDatabase.delete_by_id
        rw [if_pos hpr]
      have hpres' : ∀ x ∈ rs, ∃ q ∈ (VideoDatabase.delete_by_id db r.id).2,
          q.id = x.id := by
        intro x hx
        rcases hpres x (List.mem_cons_of_mem _ hx) with ⟨q, hq, hqid⟩
        refine ⟨q, ?_, hqid⟩
        rw [delete_by_id_snd]
        rw [List.mem_filter]
        refine ⟨hq, ?_⟩
        simp only [decide_eq_true_eq]
        intro hbad
        apply hndc.1
        rw [List.mem_map]
        exact ⟨x, hx, by rw [← hqid, hbad]⟩
      rw [hdel1, if_pos rfl, purge_go_removed fs rs (removed ++ [r.path]) _ hnd' hpres']
      rw [List.filter_cons, if_pos (by simp [hp]), List.map_cons, List.append_assoc]
      rfl

theorem record_eq_of_id_eq {db : DB} (hnd : (db.map (fun r => r.id)).Nodup)
    {r q : VideoRecord} (hr : r ∈ db) (hq : q ∈ db) (hid : r.id = q.id) :
    r = q :=
  List.inj_on_of_nodup_map hnd hr hq hid

/-- C6: the sweep removes exactly the records whose path does not exist:
the surviving table is the original filtered to existing paths, the
returned list is the paths of the removed records (in `get_all` order),
and a second sweep with an unchanged filesystem removes nothing. -/
theorem C6_purge_missing_exact (fs : Fs) (db : DB)
    (hnd : (db.map (fun r => r.id)).Nodup) :
    (remove_nonexistent_files_from_db fs db).2
        = db.filter (fun r => decide (r.path ∈ fs)) ∧
    (remove_nonexistent_files_from_db fs db).1
        = ((VideoDatabase.get_all db).filter
            (fun r => decide (¬ r.path ∈ fs))).map (fun r => r.path) ∧
    remove_nonexistent_files_from_db fs (remove_nonexistent_files_from_db fs db).2
        = ([], (remove_nonexistent_files_from_db fs db).2) := by
  have hga_nd : ((VideoDatabase.get_all db).map (fun r => r.id)).Nodup :=
    (((get_all_perm db).map (fun r => r.id)).symm).nodup hnd
  have hpres : ∀ r ∈ VideoDatabase.get_all db, ∃ q ∈ db, q.id = r.id :=
    fun r hr => ⟨r, mem_get_all.mp hr, rfl⟩
  have h2 : (remove_nonexistent_files_from_db fs db).2
      = db.filter (fun r => decide (r.path ∈ fs)) := by
    unfold remove_nonexistent_files_from_db
    rw [purge_go_db]
    apply List.filter_congr
    intro q hq
    rw [decide_eq_decide]
    constructor
    · intro hno
      by_contra hq2
      exact hno ⟨q, mem_get_all.mpr hq, rfl, hq2⟩
    · rintro hin ⟨x, hx, hid, hpath⟩
      exact hpath (record_eq_of_id_eq hnd (mem_get_all.mp hx) hq hid ▸ hin)
  have h1 : (remove_nonexistent_files_from_db fs db).1
      = ((VideoDatabase.get_all db).filter
          (fun r => decide (¬ r.path ∈ fs))).map (fun r => r.path) := by
    unfold remove_nonexistent_files_from_db
    rw [purge_go_removed fs _ [] db hga_nd hpres]
    rfl
  refine ⟨h2, h1, ?_⟩
  set db2 := (remove_nonexistent_files_from_db fs db).2 with hdb2def
  have hdb2mem : ∀ q ∈ db2, q.path ∈ fs := by
    intro q hq
    rw [h2, List.mem_filter] at hq
    simpa using hq.2
  have hnd2 : (db2.map (fun r => r.id)).Nodup := by
    rw [h2]
    exact ((List.filter_sublist db).map (fun r => r.id)).nodup hnd
  have hpres2 : ∀ r ∈ VideoDatabase.get_all db2, ∃ q ∈ db2, q.id = r.id :=
    fun r hr => ⟨r, mem_get_all.mp hr, rfl⟩
  have hga2_nd : ((VideoDatabase.get_all db2).map (fun r => r.id)).Nodup :=
    (((get_all_perm db2).map (fun r => r.id)).symm).nodup hnd2
  apply Prod.ext
  · unfold remove_nonexistent_files_from_db
    rw [purge_go_removed fs _ [] db2 hga2_nd hpres2]
    have : (VideoDatabase.get_all db2).filter (fun r => decide (¬ r.path ∈ fs))
        = [] := by
      rw [List.filter_eq_nil_iff]
      intro r hr
      simp only [decide_eq_true_eq, Decidable.not_not]
      exact hdb2mem r (mem_get_all.mp hr)
    rw [this]
    rfl
  · unfold remove_nonexistent_files_from_db
    rw [purge_go_db]
    apply List.filter_eq_self.mpr
    intro q hq
    simp only [decide_eq_true_eq]
    rintro ⟨x, hx, hid, hpath⟩
    exact hpath (hdb2mem x (mem_get_all.mp hx))

theorem C6_purge_missing_exact_witness :
    ((remove_nonexistent_files_from_db [strOf "v/a.mp4"]
        [⟨strOf "i1", strOf "a.mp4", strOf "n1", strOf "v/a.mp4"⟩,
         ⟨strOf "i2", strOf "b.mp4", strOf "n2", strOf "v/b.mp4"⟩]).2
      = [⟨strOf "i1", strOf "a.mp4", strOf "n1", strOf "v/a.mp4"⟩,
         ⟨strOf "i2", strOf "b.mp4", strOf "n2", strOf "v/b.mp4"⟩].filter
          (fun r => decide (r.path ∈ [strOf "v/a.mp4"]))) ∧
    ((remove_nonexistent_files_from_db [strOf "v/a.mp4"]
        [⟨strOf "i1", strOf "a.mp4", strOf "n1", strOf "v/a.mp4"⟩,
         ⟨strOf "i2", strOf "b.mp4", strOf "n2", strOf "v/b.mp4"⟩]).1
      = ((VideoDatabase.get_all
            [⟨strOf "i1", strOf "a.mp4", strOf "n1", strOf "v/a.mp4"⟩,
             ⟨strOf "i2", strOf "b.mp4", strOf "n2", strOf "v/b.mp4"⟩]).filter
          (fun r => decide (¬ r.path ∈ [strOf "v/a.mp4"]))).map
            (fun r => r.path)) ∧
    remove_nonexistent_files_from_db [strOf "v/a.mp4"]
        (remove_nonexistent_files_from_db [strOf "v/a.mp4"]
          [⟨strOf "i1", strOf "a.mp4", strOf "n1", strOf "v/a.mp4"⟩,
           ⟨strOf "i2", strOf "b.mp4", strOf "n2", strOf "v/b.mp4"⟩]).2
      = ([], (remove_nonexistent_files_from_db [strOf "v/a.mp4"]
          [⟨strOf "i1", strOf "a.mp4", strOf "n1", strOf "v/a.mp4"⟩,
           ⟨strOf "i2", strOf "b.mp4", strOf "n2", strOf "v/b.mp4"⟩]).2) :=
  C6_purge_missing_exact [strOf "v/a.mp4"]
    [⟨strOf "i1", strOf "a.mp4", strOf "n1", strOf "v/a.mp4"⟩,
     ⟨strOf "i2", strOf "b.mp4", strOf "n2", strOf "v/b.mp4"⟩] (by decide)

/-! ### C7: the restore pass never overwrites -/

theorem restore_go_pairs_extend (upd : Bool) (mv : MoveOracle) :
    ∀ (rs : List VideoRecord) (acc : List (Str × Str)) (fs : Fs) (db : DB)
      (pairs : List (Str × Str)) (fs2 : Fs) (db2 : DB),
    restore_go upd mv rs acc fs db = .ok (pairs, fs2, db2) →
    ∃ tl, pairs = acc ++ tl
  | [], acc, fs, db, pairs, fs2, db2 => by
    intro h
    simp only [restore_go] at h
    cases h
    exact ⟨[], by simp⟩
  | r :: rs, acc, fs, db, pairs, fs2, db2 => by
    intro h
    simp only [restore_go] at h
    by_cases h1 : r.path ∈ fs
    · rw [if_pos h1] at h
      by_cases h2 : basename r.path = r.original_name
      · rw [if_pos h2] at h
        exact restore_go_pairs_extend upd mv rs acc fs db pairs fs2 db2 h
      · rw [if_neg h2] at h
        by_cases h3 : pjoin (dirname r.path) r.original_name ∈ fs
        · rw [if_pos h3] at h
          exact restore_go_pairs_extend upd mv rs acc fs db pairs fs2 db2 h
        · rw [if_neg h3] at h
          by_cases h4 : mv r.path (pjoin (dirname r.path) r.original_name) = true
          · rw [if_pos h4] at h
            rcases restore_go_pairs_extend upd mv rs _ _ _ pairs fs2 db2 h with ⟨tl, htl⟩
            exact ⟨(r.path, pjoin (dirname r.path) r.original_name) :: tl,
              by rw [htl, List.append_assoc]; rfl⟩
          · rw [if_neg h4] at h
            cases h
    · rw [if_neg h1] at h
      exact restore_go_pairs_extend upd mv rs acc fs db pairs fs2 db2 h

theorem fsMove_nodup {fs : Fs} {src dst : Str} (h : fs.Nodup) :
    (fsMove fs src dst).Nodup := by
  unfold fsMove
  by_cases hd : dst ∈ fs.erase src
  · rw [if_pos hd]
    exact h.erase src
  · rw [if_neg hd]
    exact List.nodup_cons.mpr ⟨hd, h.erase src⟩

theorem fsMove_length {fs : Fs} {src dst : Str} (hsrc : src ∈ fs)
    (hdst : dst ∉ fs) : (fsMove fs src dst).length = fs.length := by
  unfold fsMove
  rw [if_neg (fun hmem => hdst (List.erase_subset _ _ hmem))]
  rw [List.length_cons, List.length_erase_of_mem hsrc]
  have : 1 ≤ fs.length := List.length_pos.mpr (by rintro rfl; simp at hsrc)
  omega

/-- Along a restore run, filesystem size and no-duplicates are preserved
and every starting file either survives or is the source of a recorded
move. -/
theorem restore_go_no_overwrite (upd : Bool) (mv : MoveOracle) :
    ∀ (rs : List VideoRecord) (acc : List (Str × Str)) (fs : Fs) (db : DB)
      (pairs : List (Str × Str)) (fs2 : Fs) (db2 : DB),
    restore_go upd mv rs acc fs db = .ok (pairs, fs2, db2) →
    fs.Nodup →
    fs2.length = fs.length ∧ fs2.Nodup ∧
      (∀ p ∈ fs, p ∈ fs2 ∨ ∃ t, (p, t) ∈ pairs)
  | [], acc, fs, db, pairs, fs2, db2 => by
    intro h hnd
    simp only [restore_go] at h
    cases h
    exact ⟨rfl, hnd, fun p hp => Or.inl hp⟩
  | r :: rs, acc, fs, db, pairs, fs2, db2 => by
    intro h hnd
    simp only [restore_go] at h
    by_cases h1 : r.path ∈ fs
    · rw [if_pos h1] at h
      by_cases h2 : basename r.path = r.original_name
      · rw [if_pos h2] at h
        exact restore_go_no_overwrite upd mv rs acc fs db pairs fs2 db2 h hnd
      · rw [if_neg h2] at h
        by_cases h3 : pjoin (dirname r.path) r.original_name ∈ fs
        · rw [if_pos h3] at h
          exact restore_go_no_overwrite upd mv rs acc fs db pairs fs2 db2 h hnd
        · rw [if_neg h3] at h
          by_cases h4 : mv r.path (pjoin (dirname r.path) r.original_name) = true
          · rw [if_pos h4] at h
            have hrec := restore_go_no_overwrite upd mv rs _ _ _ pairs fs2 db2 h
              (fsMove_nodup hnd)
            rcases hrec with ⟨hlen, hnd2, hsur⟩
            refine ⟨by rw [hlen, fsMove_length h1 h3], hnd2, ?_⟩
            intro p hp
            by_cases hpr : p = r.path
            · right
              rcases restore_go_pairs_extend upd mv rs _ _ _ pairs fs2 db2 h
                with ⟨tl, htl⟩
              refine ⟨pjoin (dirname r.path) r.original_name, ?_⟩
              rw [htl, hpr]
              exact List.mem_append_left _
                (List.mem_append_right _ (List.mem_singleton.mpr rfl))
            · have hpm : p ∈ fsMove fs r.path
                  (pjoin (dirname r.path) r.original_name) := by
                unfold fsMove
                have hper : p ∈ fs.erase r.path :=
                  (List.mem_erase_of_ne hpr).mpr hp
                by_cases hd : pjoin (dirname r.path) r.original_name
                    ∈ fs.erase r.path
                · rw [if_pos hd]; exact hper
                · rw [if_neg hd]; exact List.mem_cons_of_mem _ hper
              exact hsur p hpm
          · rw [if_neg h4] at h
            cases h
    · rw [if_neg h1] at h
      exact restore_go_no_overwrite upd mv rs acc fs db pairs fs2 db2 h hnd

theorem restore_go_untouched (upd : Bool) (mv : MoveOracle) (db0 : DB)
    (hnd0 : (db0.map (fun r => r.id)).Nodup) :
    ∀ (rs : List VideoRecord) (acc : List (Str × Str)) (fs : Fs) (db : DB)
      (pairs : List (Str × Str)) (fs2 : Fs) (db2 : DB),
    restore_go upd mv rs acc fs db = .ok (pairs, fs2, db2) →
    (rs.map (fun r => r.id)).Nodup →
    (∀ x ∈ rs, x ∈ db0) →
    (∀ q ∈ db, q ∈ db0 ∨ ∀ x ∈ rs, ¬ q.id = x.id) →
    ∀ q ∈ db, (∀ t, (q.path, t) ∉ pairs) → q ∈ db2
  | [], acc, fs, db, pairs, fs2, db2 => by
    intro h _ _ _ q hq _
    simp only [restore_go] at h
    cases h
    exact hq
  | r :: rs, acc, fs, db, pairs, fs2, db2 => by
    intro h hnd hsub hinv q hq hnopair
    have hndc := hnd
    rw [List.map_cons, List.nodup_cons] at hndc
    have hsub' : ∀ x ∈ rs, x ∈ db0 :=
      fun x hx => hsub x (List.mem_cons_of_mem _ hx)
    have hinvW : ∀ q2 ∈ db, q2 ∈ db0 ∨ ∀ x ∈ rs, ¬ q2.id = x.id := by
      intro q2 hq2
      rcases hinv q2 hq2 with h0 | h0
      · exact Or.inl h0
      · exact Or.inr (fun x hx => h0 x (List.mem_cons_of_mem _ hx))
    simp only [restore_go] at h
    by_cases h1 : r.path ∈ fs
    · rw [if_pos h1] at h
      by_cases h2 : basename r.path = r.original_name
      · rw [if_pos h2] at h
        exact restore_go_untouched upd mv db0 hnd0 rs acc fs db pairs fs2 db2 h
          hndc.2 hsub' hinvW q hq hnopair
      · rw [if_neg h2] at h
        by_cases h3 : pjoin (dirname r.path) r.original_name ∈ fs
        · rw [if_pos h3] at h
          exact restore_go_untouched upd mv db0 hnd0 rs acc fs db pairs fs2 db2 h
            hndc.2 hsub' hinvW q hq hnopair
        · rw [if_neg h3] at h
          by_cases h4 : mv r.path (pjoin (dirname r.path) r.original_name) = true
          · rw [if_pos h4] at h
            have hqid : ¬ q.id = r.id := by
              intro hid
              have hq0 : q ∈ db0 := by
                rcases hinv q hq with h0 | h0
                · exact h0
                · exact absurd hid (h0 r (List.mem_cons_self _ _))
              have hqr : q = r :=
                record_eq_of_id_eq hnd0 hq0 (hsub r (List.mem_cons_self _ _)) hid
              rcases restore_go_pairs_extend upd mv rs _ _ _ pairs fs2 db2 h
                with ⟨tl, htl⟩
              apply hnopair (pjoin (dirname r.path) r.original_name)
              rw [htl, hqr]
              exact List.mem_append_left _
                (List.mem_append_right _ (List.mem_singleton.mpr rfl))
            cases upd with
            | false =>
              simp only [Bool.false_eq_true, if_false] at h
              exact restore_go_untouched false mv db0 hnd0 rs _ _ db pairs fs2 db2
                h hndc.2 hsub' hinvW q hq hnopair
            | true =>
              simp only [if_true] at h
              have hqmem : q ∈ updateRec db r.id r.original_name
                  (pjoin (dirname r.path) r.original_name) := by
                unfold updateRec
                exact List.mem_map.mpr ⟨q, hq, if_neg hqid⟩
              have hinv2 : ∀ q2 ∈ updateRec db r.id r.original_name
                  (pjoin (dirname r.path) r.original_name),
                  q2 ∈ db0 ∨ ∀ x ∈ rs, ¬ q2.id = x.id := by
                intro q2 hq2
                unfold updateRec at hq2
                rcases List.mem_map.mp hq2 with ⟨q3, hq3, hq3map⟩
                by_cases hq3id : q3.id = r.id
                · rw [if_pos hq3id] at hq3map
                  refine Or.inr (fun x hx hbad => ?_)
                  apply hndc.1
                  rw [List.mem_map]
                  refine ⟨x, hx, ?_⟩
                  rw [← hbad, ← hq3map]
                  exact hq3id
                · rw [if_neg hq3id] at hq3map
                  rw [← hq3map]
                  exact hinvW q3 hq3
              exact restore_go_untouched true mv db0 hnd0 rs _ _ _ pairs fs2 db2
                h hndc.2 hsub' hinv2 q hqmem hnopair
          · rw [if_neg h4] at h
            cases h
    · rw [if_neg h1] at h
      exact restore_go_untouched upd mv db0 hnd0 rs acc fs db pairs fs2 db2 h
        hndc.2 hsub' hinvW q hq hnopair

/-- C7: the restore pass never overwrites. A record whose restoration
target is occupied by an existing file is skipped outright (no move, no
registry change, no entry in the result); over a whole successful run the
number of files is preserved and a file can only stop existing by being
itself the source of a recorded restore move; records that are the source
of no recorded move survive in the registry unchanged. -/
theorem C7_restore_never_overwrites (mv : MoveOracle) (fs : Fs) (db : DB)
    (update_db : Bool) (pairs : List (Str × Str)) (fs2 : Fs) (db2 : DB)
    (hrun : restore_video_filenames_from_db mv fs db update_db
      = .ok (pairs, fs2, db2)) :
    (∀ (rs : List VideoRecord) (acc : List (Str × Str)) (fsx : Fs) (dbx : DB)
        (r : VideoRecord),
      r.path ∈ fsx → ¬ basename r.path = r.original_name →
      pjoin (dirname r.path) r.original_name ∈ fsx →
      restore_go update_db mv (r :: rs) acc fsx dbx
        = restore_go update_db mv rs acc fsx dbx) ∧
    (fs.Nodup → fs2.length = fs.length ∧ fs2.Nodup ∧
      (∀ p ∈ fs, p ∈ fs2 ∨ ∃ t, (p, t) ∈ pairs)) ∧
    ((db.map (fun r => r.id)).Nodup →
      ∀ q ∈ db, (∀ t, (q.path, t) ∉ pairs) → q ∈ db2) := by
  refine ⟨?_, ?_, ?_⟩
  · intro rs acc fsx dbx r hp hb ht
    simp only [restore_go]
    rw [if_pos hp, if_neg hb, if_pos ht]
  · intro hnd
    exact restore_go_no_overwrite update_db mv _ [] fs db pairs fs2 db2 hrun hnd
  · intro hnd q hq hnopair
    have hga_nd : ((VideoDatabase.get_all db).map (fun r => r.id)).Nodup :=
      (((get_all_perm db).map (fun r => r.id)).symm).nodup hnd
    exact restore_go_untouched update_db mv db hnd
      (VideoDatabase.get_all db) [] fs db pairs fs2 db2 hrun hga_nd
      (fun x hx => mem_get_all.mp hx) (fun q2 hq2 => Or.inl hq2) q hq hnopair

theorem C7_restore_never_overwrites_witness :
    (∀ (rs : List VideoRecord) (acc : List (Str × Str)) (fsx : Fs) (dbx : DB)
        (r : VideoRecord),
      r.path ∈ fsx → ¬ basename r.path = r.original_name →
      pjoin (dirname r.path) r.original_name ∈ fsx →
      restore_go true (fun _ _ => true) (r :: rs) acc fsx dbx
        = restore_go true (fun _ _ => true) rs acc fsx dbx) ∧
    ([strOf "v/n.mp4", strOf "v/b.mp4"].Nodup →
      ([strOf "v/n.mp4", strOf "v/b.mp4"] : Fs).length
          = ([strOf "v/n.mp4", strOf "v/b.mp4"] : Fs).length ∧
        ([strOf "v/n.mp4", strOf "v/b.mp4"] : Fs).Nodup ∧
        (∀ p ∈ ([strOf "v/n.mp4", strOf "v/b.mp4"] : Fs),
          p ∈ ([strOf "v/n.mp4", strOf "v/b.mp4"] : Fs) ∨
            ∃ t, (p, t) ∈ ([] : List (Str × Str)))) ∧
    (([(⟨strOf "i", strOf "b.mp4", strOf "n.mp4", strOf "v/n.mp4"⟩ :
          VideoRecord)].map (fun r => r.id)).Nodup →
      ∀ q ∈ [(⟨strOf "i", strOf "b.mp4", strOf "n.mp4", strOf "v/n.mp4"⟩ :
          VideoRecord)],
        (∀ t, (q.path, t) ∉ ([] : List (Str × Str))) →
        q ∈ [(⟨strOf "i", strOf "b.mp4", strOf "n.mp4", strOf "v/n.mp4"⟩ :
          VideoRecord)]) :=
  C7_restore_never_overwrites (fun _ _ => true)
    [strOf "v/n.mp4", strOf "v/b.mp4"]
    [⟨strOf "i", strOf "b.mp4", strOf "n.mp4", strOf "v/n.mp4"⟩] true
    [] [strOf "v/n.mp4", strOf "v/b.mp4"]
    [⟨strOf "i", strOf "b.mp4", strOf "n.mp4", strOf "v/n.mp4"⟩] rfl

/-! ### C2: idempotence of the rename batch -/

theorem fsMove_mem {fs : Fs} {src dst p : Str} (h : p ∈ fsMove fs src dst) :
    p = dst ∨ p ∈ fs.erase src := by
  unfold fsMove at h
  by_cases hd : dst ∈ fs.erase src
  · rw [if_pos hd] at h
    exact Or.inr h
  · rw [if_neg hd] at h
    exact List.mem_cons.mp h

theorem rename_single_inversion (mv : MoveOracle) (fs : Fs) (db : DB)
    (sup : Supply) (file_path : Str)
    (res : Option (Str × Str)) (fs2 : Fs) (db2 : DB) (sup2 : Supply)
    (h : rename_single_video_and_save_metadata mv fs db sup file_path
      = .ok (res, fs2, db2, sup2)) :
    (res = none ∧ fs2 = fs ∧ db2 = db ∧ sup2 = sup ∧
      (¬ file_path ∈ fs ∨ ¬ is_video_file file_path ∨
        is_already_renamed file_path)) ∨
    (∃ d : Draw, ∃ np : Str,
      np = pjoin (dirname file_path)
        (idFromDraw d ++ strLower (splitext file_path).2) ∧
      res = some (basename np, np) ∧ fs2 = fsMove fs file_path np ∧
      file_path ∈ fs ∧ is_video_file file_path ∧
      ¬ is_already_renamed file_path ∧ np ∉ fs) := by
  simp only [rename_single_video_and_save_metadata] at h
  by_cases hg : ¬ file_path ∈ fs ∨ ¬ is_video_file file_path ∨
      is_already_renamed file_path
  · rw [if_pos hg] at h
    cases h
    exact Or.inl ⟨rfl, rfl, rfl, rfl, hg⟩
  · rw [if_neg hg] at h
    push_neg at hg
    obtain ⟨hmem, hvid, hnren⟩ := hg
    cases hgen : generate_unique_video_id fs (dirname file_path)
        (strLower (splitext file_path).2) sup with
    | none =>
      rw [hgen] at h
      cases h
    | some trip =>
      obtain ⟨new_id, np, sup3⟩ := trip
      rw [hgen] at h
      dsimp only at h
      obtain ⟨⟨d, rfl⟩, hnp, hnot⟩ := generate_spec hgen
      by_cases hmv : mv file_path np = true
      · rw [if_pos hmv] at h
        cases hins : VideoDatabase.insert db (idFromDraw d)
            (basename file_path) (basename np) np with
        | error e =>
          rw [hins] at h
          cases h
        | ok db3 =>
          rw [hins] at h
          cases h
          exact Or.inr ⟨d, np, hnp, rfl, rfl, hmem, hvid, hnren, hnot⟩
      · rw [if_neg hmv] at h
        cases h

theorem rename_go_noop (mv : MoveOracle) :
    ∀ (L : List Str) (acc : List (Str × Str)) (fs : Fs) (db : DB) (sup : Supply),
    (∀ p ∈ L, Good fs p) →
    rename_videos_go mv L acc fs db sup = .ok (acc, fs, db, sup)
  | [], acc, fs, db, sup => fun _ => rfl
  | p :: ps, acc, fs, db, sup => by
    intro hall
    have hp := hall p (List.mem_cons_self _ _)
    have hrest : ∀ q ∈ ps, Good fs q :=
      fun q hq => hall q (List.mem_cons_of_mem _ hq)
    simp only [rename_videos_go]
    by_cases h1 : is_already_renamed (basename p)
    · rw [if_pos h1]
      exact rename_go_noop mv ps acc fs db sup hrest
    · rw [if_neg h1]
      by_cases h2 : is_video_file (pjoin (dirname p) (basename p))
      · rw [if_pos h2]
        have hguard : ¬ pjoin (dirname p) (basename p) ∈ fs ∨
            ¬ is_video_file (pjoin (dirname p) (basename p)) ∨
            is_already_renamed (pjoin (dirname p) (basename p)) := by
          rcases hp with hp | hp | hp | hp
          · exact absurd hp h1
          · exact Or.inr (Or.inl hp)
          · exact Or.inr (Or.inr hp)
          · exact Or.inl hp
        have hrs : rename_single_video_and_save_metadata mv fs db sup
            (pjoin (dirname p) (basename p)) = .ok (none, fs, db, sup) := by
          simp only [rename_single_video_and_save_metadata]
          rw [if_pos hguard]
        rw [hrs]
        exact rename_go_noop mv ps acc fs db sup hrest
      · rw [if_neg h2]
        exact rename_go_noop mv ps acc fs db sup hrest

theorem good_stable_move {fs : Fs} {p file_path np : Str} {d : Draw}
    (hnp : np = pjoin (dirname file_path)
      (idFromDraw d ++ strLower (splitext file_path).2))
    (hvid : is_video_file file_path)
    (hgood : Good fs p) : Good (fsMove fs file_path np) p := by
  have he : strLower (splitext file_path).2 ∈ VIDEO_EXTENSIONS := hvid
  have hbnp : basename np = idFromDraw d ++ strLower (splitext file_path).2 := by
    rw [hnp]
    exact basename_pjoin (no_slash_id_ext he)
  rcases hgood with hg | hg | hg | hg
  · exact Or.inl hg
  · exact Or.inr (Or.inl hg)
  · exact Or.inr (Or.inr (Or.inl hg))
  · by_cases hshape : is_already_renamed (basename p)
    · exact Or.inl hshape
    · refine Or.inr (Or.inr (Or.inr ?_))
      intro hmem
      rcases fsMove_mem hmem with hmem | hmem
      · apply hshape
        have : basename (pjoin (dirname p) (basename p)) = basename np := by
          rw [hmem]
        rw [basename_pjoin (basename_no_slash p), hbnp] at this
        rw [this]
        exact already_renamed_idFromDraw he
      · exact hg (List.erase_subset _ _ hmem)

theorem rename_go_post (mv : MoveOracle) (directory : Str) :
    ∀ (L : List Str) (acc : List (Str × Str)) (fs : Fs) (db : DB) (sup : Supply)
      (res : List (Str × Str)) (fs2 : Fs) (db2 : DB) (sup2 : Supply),
    rename_videos_go mv L acc fs db sup = .ok (res, fs2, db2, sup2) →
    fs.Nodup →
    (∀ p ∈ fs, underDir directory p = true → (Good fs p ∨ p ∈ L)) →
    fs2.Nodup ∧ (∀ p ∈ fs2, underDir directory p = true → Good fs2 p)
  | [], acc, fs, db, sup, res, fs2, db2, sup2 => by
    intro h hnd hinv
    simp only [rename_videos_go] at h
    cases h
    refine ⟨hnd, fun p hp hu => ?_⟩
    rcases hinv p hp hu with hg | hg
    · exact hg
    · simp at hg
  | p :: ps, acc, fs, db, sup, res, fs2, db2, sup2 => by
    intro h hnd hinv
    simp only [rename_videos_go] at h
    by_cases h1 : is_already_renamed (basename p)
    · rw [if_pos h1] at h
      refine rename_go_post mv directory ps acc fs db sup res fs2 db2 sup2 h hnd ?_
      intro q hq hu
      rcases hinv q hq hu with hg | hg
      · exact Or.inl hg
      · rcases List.mem_cons.mp hg with hg | hg
        · exact Or.inl (Or.inl (hg ▸ h1))
        · exact Or.inr hg
    · rw [if_neg h1] at h
      by_cases h2 : is_video_file (pjoin (dirname p) (basename p))
      · rw [if_pos h2] at h
        cases hrs : rename_single_video_and_save_metadata mv fs db sup
            (pjoin (dirname p) (basename p)) with
        | error e =>
          rw [hrs] at h
          cases h
        | ok st =>
          obtain ⟨ores, fsx, dbx, supx⟩ := st
          rw [hrs] at h
          rcases rename_single_inversion mv fs db sup _ ores fsx dbx supx hrs
            with ⟨rfl, rfl, rfl, rfl, hguard⟩ | ⟨d, np, hnp, rfl, rfl, hmem, hvid, hnren, hnpnot⟩
          · refine rename_go_post mv directory ps acc _ _ _ res fs2 db2 sup2
              h hnd ?_
            intro q hq hu
            rcases hinv q hq hu with hg | hg
            · exact Or.inl hg
            · rcases List.mem_cons.mp hg with hg | hg
              · subst hg
                rcases hguard with hg2 | hg2 | hg2
                · exact Or.inl (Or.inr (Or.inr (Or.inr hg2)))
                · exact Or.inl (Or.inr (Or.inl hg2))
                · exact Or.inl (Or.inr (Or.inr (Or.inl hg2)))
              · exact Or.inr hg
          · refine rename_go_post mv directory ps (acc ++ [(basename np, np)])
              (fsMove fs (pjoin (dirname p) (basename p)) np) dbx supx
              res fs2 db2 sup2 h (fsMove_nodup hnd) ?_
            intro q hq hu
            rcases fsMove_mem hq with hq2 | hq2
            · subst hq2
              have he : strLower (splitext (pjoin (dirname p) (basename p))).2
                  ∈ VIDEO_EXTENSIONS := hvid
              left
              left
              rw [hnp, basename_pjoin (no_slash_id_ext he)]
              exact already_renamed_idFromDraw he
            · have hqfs : q ∈ fs := List.erase_subset _ _ hq2
              rcases hinv q hqfs hu with hg | hg
              · exact Or.inl (good_stable_move hnp hvid hg)
              · rcases List.mem_cons.mp hg with hg | hg
                · subst hg
                  left
                  refine Or.inr (Or.inr (Or.inr ?_))
                  intro hmem2
                  rcases fsMove_mem hmem2 with hmem2 | hmem2
                  · apply h1
                    have he : strLower (splitext (pjoin (dirname q) (basename q))).2
                        ∈ VIDEO_EXTENSIONS := hvid
                    have hb : basename (pjoin (dirname q) (basename q))
                        = basename np := by rw [hmem2]
                    rw [basename_pjoin (basename_no_slash q), hnp,
                      basename_pjoin (no_slash_id_ext he)] at hb
                    rw [hb]
                    exact already_renamed_idFromDraw he
                  · exact hnd.not_mem_erase hmem2
                · exact Or.inr hg
      · rw [if_neg h2] at h
        refine rename_go_post mv directory ps acc fs db sup res fs2 db2 sup2 h hnd ?_
        intro q hq hu
        rcases hinv q hq hu with hg | hg
        · exact Or.inl hg
        · rcases List.mem_cons.mp hg with hg | hg
          · subst hg
            exact Or.inl (Or.inr (Or.inl h2))
          · exact Or.inr hg

/-- C2: the rename batch is idempotent. If one run over a duplicate-free
tree terminates normally, a second run on the resulting state — with any
move oracle and any draw supply — renames zero files and leaves the
filesystem and the registry exactly as the first run left them, because
every file either now carries an 11-character alphabet basename or was
skipped for a reason that still holds. -/
theorem C2_rename_idempotent (mv mv2 : MoveOracle) (directory : Str) (fs : Fs)
    (db : DB) (sup sup2 : Supply) (res : List (Str × Str)) (fs1 : Fs) (db1 : DB)
    (sup1 : Supply) (hnd : fs.Nodup)
    (h : rename_videos_and_save_metadata mv directory fs db sup
      = .ok (res, fs1, db1, sup1)) :
    rename_videos_and_save_metadata mv2 directory fs1 db1 sup2
      = .ok ([], fs1, db1, sup2) := by
  unfold rename_videos_and_save_metadata at h ⊢
  have hpost := rename_go_post mv directory (walkFiles directory fs) [] fs db sup
    res fs1 db1 sup1 h hnd
    (fun p hp hu => Or.inr (List.mem_filter.mpr ⟨hp, hu⟩))
  apply rename_go_noop
  intro p hpL
  have hp1 := List.mem_filter.mp hpL
  exact hpost.2 p hp1.1 hp1.2

theorem C2_rename_idempotent_witness :
    rename_videos_and_save_metadata alwaysMove (strOf "v")
        [strOf "v/aaaaaaaaaaa.mp4"]
        [⟨strOf "aaaaaaaaaaa", strOf "MyClip.mp4", strOf "aaaaaaaaaaa.mp4",
          strOf "v/aaaaaaaaaaa.mp4"⟩] []
      = .ok ([], [strOf "v/aaaaaaaaaaa.mp4"],
          [⟨strOf "aaaaaaaaaaa", strOf "MyClip.mp4", strOf "aaaaaaaaaaa.mp4",
            strOf "v/aaaaaaaaaaa.mp4"⟩], []) :=
  C2_rename_idempotent alwaysMove alwaysMove (strOf "v")
    [strOf "v/MyClip.mp4"] [] [fun _ => 0] []
    [(strOf "aaaaaaaaaaa.mp4", strOf "v/aaaaaaaaaaa.mp4")]
    [strOf "v/aaaaaaaaaaa.mp4"]
    [⟨strOf "aaaaaaaaaaa", strOf "MyClip.mp4", strOf "aaaaaaaaaaa.mp4",
      strOf "v/aaaaaaaaaaa.mp4"⟩] [] (by decide) rfl

/-! ### C1: the rename / restore round trip on a one-file tree -/

theorem scenario_rename (dir name : Str) (d : Draw) (sup : Supply) (db0 : DB)
    (hns : '/' ∉ name) (hd : ¬ dir.getLast? = some '/')
    (hv : is_video_file (pjoin dir name))
    (hna : ¬ is_already_renamed name)
    (hnf : ¬ is_already_renamed (pjoin dir name))
    (hfresh : ¬ ∃ r ∈ db0, r.id = idFromDraw d) :
    rename_videos_and_save_metadata alwaysMove dir [pjoin dir name] db0 (d :: sup)
      = .ok ([(idFromDraw d ++ strLower (splitext (pjoin dir name)).2,
               pjoin dir (idFromDraw d ++ strLower (splitext (pjoin dir name)).2))],
          [pjoin dir (idFromDraw d ++ strLower (splitext (pjoin dir name)).2)],
          db0 ++ [⟨idFromDraw d, name,
            idFromDraw d ++ strLower (splitext (pjoin dir name)).2,
            pjoin dir (idFromDraw d ++ strLower (splitext (pjoin dir name)).2)⟩],
          sup) := by
  have he : strLower (splitext (pjoin dir name)).2 ∈ VIDEO_EXTENSIONS := hv
  have F1 : basename (pjoin dir name) = name := basename_pjoin hns
  have F2 : dirname (pjoin dir name) = dir := dirname_pjoin hns hd
  have F3 : '/' ∉ idFromDraw d ++ strLower (splitext (pjoin dir name)).2 :=
    no_slash_id_ext he
  have F4 : is_already_renamed
      (idFromDraw d ++ strLower (splitext (pjoin dir name)).2) :=
    already_renamed_idFromDraw he
  have F5 : ¬ (idFromDraw d ++ strLower (splitext (pjoin dir name)).2) = name :=
    fun hh => hna (hh ▸ F4)
  have F6 : basename (pjoin dir
        (idFromDraw d ++ strLower (splitext (pjoin dir name)).2))
      = idFromDraw d ++ strLower (splitext (pjoin dir name)).2 :=
    basename_pjoin F3
  have F8 : ¬ pjoin dir (idFromDraw d ++ strLower (splitext (pjoin dir name)).2)
      = pjoin dir name :=
    fun hh => F5 (pjoin_right_inj (head_ne_slash F3) (head_ne_slash hns) hh)
  have hwalk : walkFiles dir [pjoin dir name] = [pjoin dir name] := by
    unfold walkFiles underDir
    simp [F2]
  have hgen : generate_unique_video_id [pjoin dir name]
      (dirname (pjoin dir name)) (strLower (splitext (pjoin dir name)).2)
      (d :: sup) = some (idFromDraw d,
        pjoin dir (idFromDraw d ++ strLower (splitext (pjoin dir name)).2),
        sup) := by
    rw [F2]
    simp only [generate_unique_video_id]
    rw [if_neg (by simp [F8])]
  have hmove : fsMove [pjoin dir name] (pjoin dir name)
      (pjoin dir (idFromDraw d ++ strLower (splitext (pjoin dir name)).2))
      = [pjoin dir (idFromDraw d ++ strLower (splitext (pjoin dir name)).2)] := by
    unfold fsMove
    simp
  have hins : VideoDatabase.insert db0 (idFromDraw d)
      (basename (pjoin dir name))
      (basename (pjoin dir
        (idFromDraw d ++ strLower (splitext (pjoin dir name)).2)))
      (pjoin dir (idFromDraw d ++ strLower (splitext (pjoin dir name)).2))
      = .ok (db0 ++ [⟨idFromDraw d, name,
          idFromDraw d ++ strLower (splitext (pjoin dir name)).2,
          pjoin dir (idFromDraw d ++ strLower (splitext (pjoin dir name)).2)⟩]) := by
    unfold VideoDatabase.insert
    rw [if_neg hfresh, F1, F6]
  have hsingle : rename_single_video_and_save_metadata alwaysMove
      [pjoin dir name] db0 (d :: sup) (pjoin dir name)
      = .ok (some (idFromDraw d ++ strLower (splitext (pjoin dir name)).2,
          pjoin dir (idFromDraw d ++ strLower (splitext (pjoin dir name)).2)),
          [pjoin dir (idFromDraw d ++ strLower (splitext (pjoin dir name)).2)],
          db0 ++ [⟨idFromDraw d, name,
            idFromDraw d ++ strLower (splitext (pjoin dir name)).2,
            pjoin dir (idFromDraw d ++ strLower (splitext (pjoin dir name)).2)⟩],
          sup) := by
    simp only [rename_single_video_and_save_metadata]
    rw [if_neg (by
      push_neg
      exact ⟨List.mem_singleton.mpr rfl, hv, hnf⟩)]
    rw [hgen]
    dsimp only
    rw [if_pos (show alwaysMove (pjoin dir name)
      (pjoin dir (idFromDraw d ++ strLower (splitext (pjoin dir name)).2))
        = true from rfl)]
    rw [hins]
    dsimp only
    rw [F6, hmove]
  unfold rename_videos_and_save_metadata
  rw [hwalk]
  simp only [rename_videos_go]
  rw [F1, if_neg hna, F2]
  rw [if_pos hv, hsingle]
  dsimp only
  simp only [rename_videos_go, List.nil_append]

theorem scenario_restore (dir name : Str) (d : Draw)
    (hns : '/' ∉ name) (hd : ¬ dir.getLast? = some '/')
    (hv : is_video_file (pjoin dir name))
    (hna : ¬ is_already_renamed name) :
    restore_video_filenames_from_db alwaysMove
      [pjoin dir (idFromDraw d ++ strLower (splitext (pjoin dir name)).2)]
      [⟨idFromDraw d, name,
        idFromDraw d ++ strLower (splitext (pjoin dir name)).2,
        pjoin dir (idFromDraw d ++ strLower (splitext (pjoin dir name)).2)⟩] true
    = .ok ([(pjoin dir (idFromDraw d ++ strLower (splitext (pjoin dir name)).2),
             pjoin dir name)],
        [pjoin dir name],
        [⟨idFromDraw d, name, name, pjoin dir name⟩]) := by
  have he : strLower (splitext (pjoin dir name)).2 ∈ VIDEO_EXTENSIONS := hv
  have F3 : '/' ∉ idFromDraw d ++ strLower (splitext (pjoin dir name)).2 :=
    no_slash_id_ext he
  have F4 : is_already_renamed
      (idFromDraw d ++ strLower (splitext (pjoin dir name)).2) :=
    already_renamed_idFromDraw he
  have F5 : ¬ (idFromDraw d ++ strLower (splitext (pjoin dir name)).2) = name :=
    fun hh => hna (hh ▸ F4)
  have F6 : basename (pjoin dir
        (idFromDraw d ++ strLower (splitext (pjoin dir name)).2))
      = idFromDraw d ++ strLower (splitext (pjoin dir name)).2 :=
    basename_pjoin F3
  have F7 : dirname (pjoin dir
        (idFromDraw d ++ strLower (splitext (pjoin dir name)).2)) = dir :=
    dirname_pjoin F3 hd
  have F8 : ¬ pjoin dir (idFromDraw d ++ strLower (splitext (pjoin dir name)).2)
      = pjoin dir name :=
    fun hh => F5 (pjoin_right_inj (head_ne_slash F3) (head_ne_slash hns) hh)
  have hmove : fsMove
      [pjoin dir (idFromDraw d ++ strLower (splitext (pjoin dir name)).2)]
      (pjoin dir (idFromDraw d ++ strLower (splitext (pjoin dir name)).2))
      (pjoin dir name) = [pjoin dir name] := by
    unfold fsMove
    simp
  unfold restore_video_filenames_from_db
  have hga : VideoDatabase.get_all
      [⟨idFromDraw d, name,
        idFromDraw d ++ strLower (splitext (pjoin dir name)).2,
        pjoin dir (idFromDraw d ++ strLower (splitext (pjoin dir name)).2)⟩]
      = [⟨idFromDraw d, name,
          idFromDraw d ++ strLower (splitext (pjoin dir name)).2,
          pjoin dir (idFromDraw d ++ strLower (splitext (pjoin dir name)).2)⟩] :=
    rfl
  rw [hga]
  simp only [restore_go]
  rw [if_pos (List.mem_singleton.mpr rfl)]
  rw [F6, F7]
  rw [if_neg F5]
  rw [if_neg (by
    intro hmem
    exact F8 (List.mem_singleton.mp hmem).symm)]
  rw [if_pos (show alwaysMove
    (pjoin dir (idFromDraw d ++ strLower (splitext (pjoin dir name)).2))
    (pjoin dir name) = true from rfl)]
  rw [hmove]
  have hupd : updateRec
      [⟨idFromDraw d, name,
        idFromDraw d ++ strLower (splitext (pjoin dir name)).2,
        pjoin dir (idFromDraw d ++ strLower (splitext (pjoin dir name)).2)⟩]
      (idFromDraw d) name (pjoin dir name)
      = [⟨idFromDraw d, name, name, pjoin dir name⟩] := by
    unfold updateRec
    simp
  rw [if_pos True.intro, hupd]
  simp only [restore_go, List.nil_append]

/-- C1: round-trip law on a one-file tree. The rename batch renames the
file to `id + ext`; the restore batch with `update_db = True` then moves
it back so that the final basename is the record's `original_name`, which
does not satisfy the already-renamed predicate; a subsequent rename batch
therefore treats the file as a fresh candidate and renames it again
(rather than skipping it), under a fresh draw whose id differs from the
registered one. -/
theorem C1_round_trip (dir name : Str) (d d2 : Draw) (sup1 sup2 : Supply)
    (hns : '/' ∉ name) (hd : ¬ dir.getLast? = some '/')
    (hv : is_video_file (pjoin dir name))
    (hna : ¬ is_already_renamed name)
    (hnf : ¬ is_already_renamed (pjoin dir name))
    (hdd : ¬ idFromDraw d2 = idFromDraw d) :
    rename_videos_and_save_metadata alwaysMove dir [pjoin dir name] []
        (d :: sup1)
      = .ok ([(idFromDraw d ++ strLower (splitext (pjoin dir name)).2,
               pjoin dir (idFromDraw d ++ strLower (splitext (pjoin dir name)).2))],
          [pjoin dir (idFromDraw d ++ strLower (splitext (pjoin dir name)).2)],
          [] ++ [⟨idFromDraw d, name,
            idFromDraw d ++ strLower (splitext (pjoin dir name)).2,
            pjoin dir (idFromDraw d ++ strLower (splitext (pjoin dir name)).2)⟩],
          sup1) ∧
    restore_video_filenames_from_db alwaysMove
        [pjoin dir (idFromDraw d ++ strLower (splitext (pjoin dir name)).2)]
        [⟨idFromDraw d, name,
          idFromDraw d ++ strLower (splitext (pjoin dir name)).2,
          pjoin dir (idFromDraw d ++ strLower (splitext (pjoin dir name)).2)⟩]
        true
      = .ok ([(pjoin dir (idFromDraw d ++ strLower (splitext (pjoin dir name)).2),
               pjoin dir name)],
          [pjoin dir name],
          [⟨idFromDraw d, name, name, pjoin dir name⟩]) ∧
    (basename (pjoin dir name) = name ∧
      ¬ is_already_renamed (basename (pjoin dir name))) ∧
    rename_videos_and_save_metadata alwaysMove dir [pjoin dir name]
        [⟨idFromDraw d, name, name, pjoin dir name⟩] (d2 :: sup2)
      = .ok ([(idFromDraw d2 ++ strLower (splitext (pjoin dir name)).2,
               pjoin dir (idFromDraw d2 ++ strLower (splitext (pjoin dir name)).2))],
          [pjoin dir (idFromDraw d2 ++ strLower (splitext (pjoin dir name)).2)],
          [⟨idFromDraw d, name, name, pjoin dir name⟩] ++
            [⟨idFromDraw d2, name,
              idFromDraw d2 ++ strLower (splitext (pjoin dir name)).2,
              pjoin dir (idFromDraw d2 ++ strLower (splitext (pjoin dir name)).2)⟩],
          sup2) := by
  refine ⟨?_, ?_, ?_, ?_⟩
  · exact scenario_rename dir name d sup1 [] hns hd hv hna hnf (by simp)
  · exact scenario_restore dir name d hns hd hv hna
  · refine ⟨basename_pjoin hns, ?_⟩
    rw [basename_pjoin hns]
    exact hna
  · refine scenario_rename dir name d2 sup2
      [⟨idFromDraw d, name, name, pjoin dir name⟩] hns hd hv hna hnf ?_
    intro hex
    rcases hex with ⟨r, hr, hrid⟩
    rcases List.mem_singleton.mp hr with rfl
    exact hdd hrid.symm

theorem C1_round_trip_witness :
    rename_videos_and_save_metadata alwaysMove (strOf "v")
        [pjoin (strOf "v") (strOf "MyClip.mp4")] []
        ((fun _ => 0) :: ([] : Supply))
      = .ok ([(idFromDraw (fun _ => 0) ++
              strLower (splitext (pjoin (strOf "v") (strOf "MyClip.mp4"))).2,
               pjoin (strOf "v") (idFromDraw (fun _ => 0) ++
              strLower (splitext (pjoin (strOf "v") (strOf "MyClip.mp4"))).2))],
          [pjoin (strOf "v") (idFromDraw (fun _ => 0) ++
            strLower (splitext (pjoin (strOf "v") (strOf "MyClip.mp4"))).2)],
          [] ++ [⟨idFromDraw (fun _ => 0), strOf "MyClip.mp4",
            idFromDraw (fun _ => 0) ++
              strLower (splitext (pjoin (strOf "v") (strOf "MyClip.mp4"))).2,
            pjoin (strOf "v") (idFromDraw (fun _ => 0) ++
              strLower (splitext (pjoin (strOf "v") (strOf "MyClip.mp4"))).2)⟩],
          []) ∧
    restore_video_filenames_from_db alwaysMove
        [pjoin (strOf "v") (idFromDraw (fun _ => 0) ++
          strLower (splitext (pjoin (strOf "v") (strOf "MyClip.mp4"))).2)]
        [⟨idFromDraw (fun _ => 0), strOf "MyClip.mp4",
          idFromDraw (fun _ => 0) ++
            strLower (splitext (pjoin (strOf "v") (strOf "MyClip.mp4"))).2,
          pjoin (strOf "v") (idFromDraw (fun _ => 0) ++
            strLower (splitext (pjoin (strOf "v") (strOf "MyClip.mp4"))).2)⟩]
        true
      = .ok ([(pjoin (strOf "v") (idFromDraw (fun _ => 0) ++
              strLower (splitext (pjoin (strOf "v") (strOf "MyClip.mp4"))).2),
               pjoin (strOf "v") (strOf "MyClip.mp4"))],
          [pjoin (strOf "v") (strOf "MyClip.mp4")],
          [⟨idFromDraw (fun _ => 0), strOf "MyClip.mp4", strOf "MyClip.mp4",
            pjoin (strOf "v") (strOf "MyClip.mp4")⟩]) ∧
    (basename (pjoin (strOf "v") (strOf "MyClip.mp4")) = strOf "MyClip.mp4" ∧
      ¬ is_already_renamed (basename (pjoin (strOf "v") (strOf "MyClip.mp4")))) ∧
    rename_videos_and_save_metadata alwaysMove (strOf "v")
        [pjoin (strOf "v") (strOf "MyClip.mp4")]
        [⟨idFromDraw (fun _ => 0), strOf "MyClip.mp4", strOf "MyClip.mp4",
          pjoin (strOf "v") (strOf "MyClip.mp4")⟩] ((fun _ => 1) :: ([] : Supply))
      = .ok ([(idFromDraw (fun _ => 1) ++
              strLower (splitext (pjoin (strOf "v") (strOf "MyClip.mp4"))).2,
               pjoin (strOf "v") (idFromDraw (fun _ => 1) ++
              strLower (splitext (pjoin (strOf "v") (strOf "MyClip.mp4"))).2))],
          [pjoin (strOf "v") (idFromDraw (fun _ => 1) ++
            strLower (splitext (pjoin (strOf "v") (strOf "MyClip.mp4"))).2)],
          [⟨idFromDraw (fun _ => 0), strOf "MyClip.mp4", strOf "MyClip.mp4",
            pjoin (strOf "v") (strOf "MyClip.mp4")⟩] ++
            [⟨idFromDraw (fun _ => 1), strOf "MyClip.mp4",
              idFromDraw (fun _ => 1) ++
                strLower (splitext (pjoin (strOf "v") (strOf "MyClip.mp4"))).2,
              pjoin (strOf "v") (idFromDraw (fun _ => 1) ++
                strLower (splitext (pjoin (strOf "v") (strOf "MyClip.mp4"))).2)⟩],
          []) :=
  C1_round_trip (strOf "v") (strOf "MyClip.mp4") (fun _ => 0) (fun _ => 1) [] []
    (by decide) (by decide) (by decide) (by decide) (by decide) (by decide)
